import Mathlib

/-!
# LibOPF: the node / sub-graph data layer (`src/subgraph.c`)

A shallow embedding of `subgraph.c`.  Conventions of the embedding:

* C `float`/`double` values are numbers of an ordered field `R` (exact
  arithmetic, no rounding) extended by the not-a-number value: `fval R`.
  Infinities and signed zeros are not represented; a quotient by zero, an
  infinity or a NaN in C, is `nan`.
* C `int` values are `Int`; array lengths and loop counters are `Nat`.  The
  products that `subgraph_set_feature` and `subgraph_set_precomputed_distance`
  compute in `int` are reduced to 32 bits by `wrap_int`.
* Heap arrays are lists.  A read or write outside an array is undefined
  behaviour in C; operations that can perform one return `Option`, and
  `none` stands for the undefined run.  `calloc` succeeds or fails by a flag;
  `realloc` returns `NULL` for a request of no cells.
* `exp` is a parameter `expf : R → R` of the density pass, so that the
  definitions stay executable over `ℚ`; over `ℝ` it is `Real.exp`.
-/

namespace LibOPF

/-! ## Values -/

/-- A C floating-point value in exact arithmetic: a number or not-a-number. -/
inductive fval (R : Type) where
  | nan : fval R
  | num : R → fval R
  deriving DecidableEq

/-- The `feat` member of a node: `NULL`, an invalid address (a record filled
with 0xFF bytes), the address `&feat_data[off]` inside the feature block of the
sub-graph that holds the node, or a block of its own (what `snode_copy`
allocates). -/
inductive featptr (R : Type) where
  | null : featptr R
  | wild : featptr R
  | view : Int → featptr R
  | own : List (fval R) → featptr R
  deriving DecidableEq

/-- The `arc_weight` member: `NULL`, an invalid address, or a distance function
taking two feature vectors and their length. -/
inductive arcptr (R : Type) where
  | null : arcptr R
  | wild : arcptr R
  | fn : (List (fval R) → List (fval R) → Int → fval R) → arcptr R

/-- Record `struct snode`: the twelve members that `snode_clear` and `snode_copy`
write.  The adjacency `struct set *adj` is a chain of identifiers, `NULL` being
the empty chain. -/
structure snode (R : Type) where
  path_val : fval R
  dens : fval R
  radius : fval R
  label : Int
  root : Int
  pred : Int
  label_true : Int
  position : Int
  feat : featptr R
  status : Int
  nplatadj : Int
  adj : List Int
  deriving DecidableEq

/-- Record `struct subgraph`: the members used by `subgraph.c`. -/
structure subgraph (R : Type) where
  node_n : Nat
  node : List (snode R)
  ordered_list_of_nodes : List Int
  feat_data : Option (List (fval R))
  feat_n : Int
  pdist : Option (List (fval R))
  pdist_train_stride : Int
  arc_weight : arcptr R
  df : fval R
  k : fval R
  dens_min : fval R
  dens_max : fval R

/-- Sentinel `NIL` of the C sources. -/
def NIL : Int := -1

/-- Constant `INT_MAX` of `<limits.h>` for a 32-bit `int`. -/
def INT_MAX : Int := 2147483647

/-- The C `int` that the machine computes for an arithmetic expression of type
`int` whose mathematical value is `x`, by two's complement wrap-around: the
32-bit value congruent to `x` modulo `2^32`, that is the residue `r` of `x`
below `2^32` when `r < 2^31` and `r - 2^32` otherwise. -/
def wrap_int (x : Int) : Int :=
  let r : Nat := (x % 4294967296).toNat
  if r < 2147483648 then (r : Int) else (r : Int) - 4294967296

section arith

variable {R : Type} [LinearOrderedField R]

/-- Constant `FLT_MAX` of `<float.h>`: the largest finite `float`,
`(2 - 2^-23) * 2^127`. -/
def FLT_MAX : R := 340282346638528859811704183484516925440

/-- Constant `FLT_MIN` of `<float.h>`: the smallest positive normalised `float`,
`2^-126`. -/
def FLT_MIN : R := 1 / 85070591730234615865843651857942052864

/-- Sum `a + b`; not-a-number is absorbing. -/
def fadd : fval R → fval R → fval R
  | .num a, .num b => .num (a + b)
  | _, _ => .nan

/-- Difference `a - b`. -/
def fsub : fval R → fval R → fval R
  | .num a, .num b => .num (a - b)
  | _, _ => .nan

/-- Product `a * b`. -/
def fmul : fval R → fval R → fval R
  | .num a, .num b => .num (a * b)
  | _, _ => .nan

/-- Quotient `a / b`.  For a zero divisor C yields an infinity or a NaN by the
signs of the operands; infinities and signed zeros are outside `fval`, and the
quotient is `nan` here.  The theorems on the density pass divide by numbers
that are not zero. -/
def fdiv : fval R → fval R → fval R
  | .num a, .num b => if b = 0 then .nan else .num (a / b)
  | _, _ => .nan

/-- Negation `-a`. -/
def fneg : fval R → fval R
  | .num a => .num (-a)
  | .nan => .nan

/-- Call `exp (a)`, for the exponential `expf`. -/
def fexp (expf : R → R) : fval R → fval R
  | .num a => .num (expf a)
  | .nan => .nan

/-- Comparison `a < b`; false when an operand is not-a-number. -/
def flt : fval R → fval R → Bool
  | .num a, .num b => decide (a < b)
  | _, _ => false

/-- Comparison `a == b`; false when an operand is not-a-number. -/
def feq : fval R → fval R → Bool
  | .num a, .num b => decide (a = b)
  | _, _ => false

end arith

/-! ## Arrays and loops -/

/-- Loop `for (i = 0; i < n; i++) s = body (i, s)`. -/
def for_upto {σ : Type} (body : Nat → σ → σ) : Nat → σ → σ
  | 0, s => s
  | n + 1, s => body n (for_upto body n s)

/-- Loop `for (i = 0; i < n; i++)` whose body may be undefined. -/
def for_uptoM {σ : Type} (body : Nat → σ → Option σ) : Nat → σ → Option σ
  | 0, s => some s
  | n + 1, s => (for_uptoM body n s).bind (body n)

/-- Assignment to members of `a[i]`: `a[i] = f (a[i])`. -/
def upd {α : Type} (a : List α) (i : Nat) (f : α → α) : List α :=
  match a[i]? with
  | some x => a.set i (f x)
  | none => a

/-- Read of `n` cells at `&m[off]`; undefined outside the array. -/
def mem_read {α : Type} (m : List α) (off n : Int) : Option (List α) :=
  if 0 ≤ off ∧ 0 ≤ n ∧ off + n ≤ m.length then
    some ((m.drop off.toNat).take n.toNat)
  else none

/-- Write of the cells `src` at `&m[off]`; undefined outside the array. -/
def mem_write {α : Type} (m : List α) (off : Int) (src : List α) : Option (List α) :=
  if 0 ≤ off ∧ off + src.length ≤ m.length then
    some (m.take off.toNat ++ src ++ m.drop (off.toNat + src.length))
  else none

/-- Read of `a[i]` for a C `int` index. -/
def at_int {α : Type} (a : List α) (i : Int) : Option α :=
  if 0 ≤ i then a[i.toNat]? else none

/-! ## Nodes -/

section code

variable {R : Type}

/-- Function `snode_clear` (subgraph.c:30-45). -/
def snode_clear (n : snode R) : snode R :=
  { n with
    path_val := .nan
    dens := .nan
    radius := .nan
    label := NIL
    root := NIL
    pred := NIL
    label_true := NIL
    position := NIL
    feat := .null
    status := 0
    nplatadj := 0
    adj := [] }

/-- A node record after `memset (.., 0xFF, ..)`: every `int` is -1 and every
`float` is a NaN.  The pointer members hold an invalid address; the chain
`adj` has no value for that and is written as the empty chain, which is sound
because every use below overwrites the record with `snode_clear` first. -/
def snode_0xFF : snode R :=
  { path_val := .nan, dens := .nan, radius := .nan, label := -1, root := -1,
    pred := -1, label_true := -1, position := -1, feat := .wild, status := -1,
    nplatadj := -1, adj := [] }

/-- Function `subgraph_create` (subgraph.c:78-112).  The three flags say whether
the three `calloc` calls return a block. -/
def subgraph_create (alloc_sg alloc_node alloc_list : Bool) (node_n : Nat) :
    Option (subgraph R) :=
  if !alloc_sg then none
  else
    -- memset (sg, 0xFF, sizeof (struct subgraph)); sg->node_n = node_n
    if !(alloc_node && alloc_list) then none
    else
      let node0 : List (snode R) := List.replicate node_n snode_0xFF
      let list0 : List Int := List.replicate node_n (-1)
      let node1 := for_upto
        (fun i nd => upd (upd nd i snode_clear) i (fun x => { x with position := (i : Int) }))
        node_n node0
      some
        { node_n := node_n
          node := node1
          ordered_list_of_nodes := list0
          feat_data := none
          feat_n := -1
          pdist := none
          pdist_train_stride := INT_MAX
          arc_weight := .wild
          df := .nan
          k := .nan
          dens_min := .nan
          dens_max := .nan }

/-! ## Features -/

/-- Body of the loop of `subgraph_set_feature` (subgraph.c:153-159) on the
feature block and the node array: the row `i` of `feat` is copied to
`chunk = &feat_data[i * feat_n]`, the node points to the chunk and takes
`label[i]` when there are labels.  The two index products are computed in
`int`. -/
def set_feature_step (feat : List (fval R)) (label : Option (List Int)) (feat_n : Int)
    (i : Nat) (st : List (fval R) × List (snode R)) :
    Option (List (fval R) × List (snode R)) :=
  (mem_read feat (wrap_int (feat_n * (i : Int))) feat_n).bind fun row =>
  (mem_write st.1 (wrap_int ((i : Int) * feat_n)) row).bind fun block =>
  let nd := upd st.2 i (fun x => { x with feat := .view (wrap_int ((i : Int) * feat_n)) })
  match label with
  | none => some (block, nd)
  | some lab => (lab[i]?).bind fun l =>
      some (block, upd nd i (fun x => { x with label_true := l }))

/-- Function `subgraph_set_feature` (subgraph.c:140-162).  The cell count
`node_n * feat_n` is computed in `int`.  The flag `alloc` says whether `calloc`
returns a block (it cannot for a negative count, which is converted to a size
beyond every block); `label = none` is the `NULL` label argument.  Returns the
`TRUE`/`FALSE` result with the sub-graph; `none` is a read outside `feat` or
`label` or a write outside the block. -/
def subgraph_set_feature (alloc : Bool) (sg : subgraph R) (feat : List (fval R))
    (label : Option (List Int)) (feat_n : Int) : Option (Bool × subgraph R) :=
  let sg1 := { sg with feat_n := feat_n }
  let cells := wrap_int ((sg1.node_n : Int) * sg1.feat_n)
  if !alloc || cells < 0 then
    some (false, { sg1 with feat_data := none })
  else
    -- calloc, then memset (sg->feat_data, 0xFF, ..)
    let block0 : List (fval R) := List.replicate cells.toNat fval.nan
    (for_uptoM (set_feature_step feat label sg1.feat_n) sg1.node_n (block0, sg1.node)).map
    fun st => (true, { sg1 with feat_data := some st.1, node := st.2 })

/-- The `n` cells behind the feature pointer `p` of a node held by `sg`;
undefined for `NULL`, for an invalid address and outside the block. -/
def feat_cells (sg : subgraph R) (p : featptr R) (n : Int) : Option (List (fval R)) :=
  match p with
  | .view off =>
    match sg.feat_data with
    | some m => mem_read m off n
    | none => none
  | .own b => mem_read b 0 n
  | .null => none
  | .wild => none

/-- Feature vector of the node in slot `i`: the `feat_n` cells behind its
feature pointer. -/
def feature_vector (sg : subgraph R) (i : Nat) : Option (List (fval R)) :=
  (sg.node[i]?).bind fun x => feat_cells sg x.feat sg.feat_n

/-! ## Distances -/

/-- Modelled from the spec: the macro `PDISTANCE (sg, i, j)` of `subgraph.h`,
which is not among the sources: the stride-indexed lookup
`sg->pdist[i * sg->pdist_train_stride + j]`. -/
def PDISTANCE (sg : subgraph R) (i j : Int) : Option (fval R) :=
  match sg.pdist with
  | some m => at_int m (i * sg.pdist_train_stride + j)
  | none => none

/-- Modelled from the spec: the function `subgraph_get_distance` of `subgraph.h`,
which is not among the sources (the spec calls it `resolve_distance`): with a
precomputed matrix, the lookup keyed by the two positions; otherwise the
selected metric function on the two feature views. -/
def subgraph_get_distance (sg : subgraph R) (a b : snode R) : Option (fval R) :=
  match sg.pdist with
  | some _ => PDISTANCE sg a.position b.position
  | none =>
    match sg.arc_weight with
    | .fn f =>
      (feat_cells sg a.feat sg.feat_n).bind fun x =>
      (feat_cells sg b.feat sg.feat_n).bind fun y =>
      some (f x y sg.feat_n)
    | .null => none
    | .wild => none

end code

section density

variable {R : Type} [LinearOrderedField R]

/-- The `while (adj != NULL)` loop of `subgraph_pdf_evaluate` (subgraph.c:252-259)
for the node `ni`, from the accumulator `v` and the counter `nelems`. -/
def pdf_adj_loop (expf : R → R) (sg : subgraph R) (ni : snode R) :
    List Int → fval R → Int → Option (fval R × Int)
  | [], v, nelems => some (v, nelems)
  | e :: rest, v, nelems =>
    (at_int sg.node e).bind fun nj =>
    (subgraph_get_distance sg ni nj).bind fun dist =>
    pdf_adj_loop expf sg ni rest (fadd v (fexp expf (fdiv (fneg dist) sg.k))) (nelems + 1)

/-- Body of the first loop of `subgraph_pdf_evaluate` (subgraph.c:248-266): the
raw density `value[i]` and the running extrema. -/
def pdf_raw_step (expf : R → R) (i : Nat) (st : subgraph R × List (fval R)) :
    Option (subgraph R × List (fval R)) :=
  (st.1.node[i]?).bind fun ni =>
  (pdf_adj_loop expf st.1 ni ni.adj (.num 0) 1).bind fun r =>
  let vi := fdiv r.1 (.num ((r.2 : Int) : R))
  let sg1 := if flt vi st.1.dens_min then { st.1 with dens_min := vi } else st.1
  let sg2 := if flt sg1.dens_max vi then { sg1 with dens_max := vi } else sg1
  some (sg2, st.2.set i vi)

/-- Function `subgraph_pdf_evaluate` (subgraph.c:236-288).  `DENS_MAX` is a
constant of a header that is not among the sources and is a parameter; the
scratch array `value` has `node_n` cells, so `value[i]` is read inside it. -/
def subgraph_pdf_evaluate (DENS_MAX : R) (expf : R → R) (sg : subgraph R) :
    Option (subgraph R) :=
  let value0 : List (fval R) := List.replicate sg.node_n (.num 0)
  let sg0 : subgraph R :=
    { sg with
      k := fdiv (fmul (.num 2) sg.df) (.num 9)
      dens_min := .num FLT_MAX
      dens_max := .num FLT_MIN }
  (for_uptoM (pdf_raw_step expf) sg0.node_n (sg0, value0)).bind fun st =>
  let sg1 := st.1
  let value := st.2
  if feq sg1.dens_min sg1.dens_max then
    some { sg1 with
      node := for_upto
        (fun i nd =>
          upd (upd nd i (fun x => { x with dens := .num DENS_MAX }))
            i (fun x => { x with path_val := .num (DENS_MAX - 1) }))
        sg1.node_n sg1.node }
  else
    some { sg1 with
      node := for_upto
        (fun i nd =>
          upd
            (upd nd i (fun x => { x with
              dens := fadd
                (fdiv (fmul (.num (DENS_MAX - 1)) (fsub (value.getD i .nan) sg1.dens_min))
                  (fsub sg1.dens_max sg1.dens_min))
                (.num 1) }))
            i (fun x => { x with path_val := fsub x.dens (.num 1) }))
        sg1.node_n sg1.node }

/-- The distances `distance (i, j)` from the node `ni` to the members `j` of an
adjacency, in the order of the chain and with its repetitions; undefined when a
member is no node or a distance is undefined. -/
def adj_distances (sg : subgraph R) (ni : snode R) : List Int → Option (List (fval R))
  | [] => some []
  | e :: rest =>
    (at_int sg.node e).bind fun nj =>
    (subgraph_get_distance sg ni nj).bind fun d =>
    (adj_distances sg ni rest).map fun ds => d :: ds

/-- Raw density of the node in slot `i` in the words of the specification:
the sum of `exp (-distance (i, j) / k)` over the adjacency of `i`, divided by
one plus the size of the adjacency, for the bandwidth `k`. -/
def raw_density (expf : R → R) (sg : subgraph R) (k : fval R) (i : Nat) : Option (fval R) :=
  (sg.node[i]?).bind fun ni =>
  (adj_distances sg ni ni.adj).bind fun ds =>
  some (fdiv
    ((ds.map fun d => fexp expf (fdiv (fneg d) k)).foldr fadd (.num 0))
    (.num (1 + (ds.length : R))))

end density

section resize

variable {R : Type} [LinearOrderedField R]

/-- Contents of the cells that `realloc` adds to a block: they are
indeterminate in C and are a parameter of `subgraph_resize`. -/
structure fresh_mem (R : Type) where
  node : Nat → snode R
  ident : Nat → Int
  cell : Nat → fval R

/-- The block of `n` cells that `realloc` returns for the block `a`: the first
`min (length, n)` cells are kept and the added cells hold `fresh`. -/
def realloc_cells {α : Type} (a : List α) (n : Nat) (fresh : Nat → α) : List α :=
  a.take n ++ (List.range (n - a.length)).map fun t => fresh (a.length + t)

/-- Call `realloc (a, n * sizeof ..)` for a cell count `n` of type `int`.  A
request for no cells releases the block and returns `NULL` (`none`): C leaves
the result of such a request to the library, and the GNU C library does this.
A negative count is converted to a size beyond every block, and the call
returns `NULL` as well.  For a positive count the call is taken to return a
block. -/
def realloc {α : Type} (a : List α) (n : Int) (fresh : Nat → α) : Option (List α) :=
  if n ≤ 0 then none else some (realloc_cells a n.toNat fresh)

/-- First part of `subgraph_resize` (subgraph.c:295-314): the three `realloc`
calls and the `memset` calls guarded by `node_n > old_n`.  The node array and
the identifier array are lists, and the `NULL` that `realloc` returns for no
cells is the empty list; the feature block is `none` when `realloc` returns
`NULL`, which the tests `if (sg->feat_data)` see.  The last `memset` writes
`node_n - old_n` cells at `&feat_data[old_n * feat_n]`. -/
def resize_arrays (fresh : fresh_mem R) (sg : subgraph R) (node_n : Nat) :
    Option (List (snode R) × List Int × Option (List (fval R))) :=
  let old_n := sg.node_n
  let node0 := (realloc sg.node (node_n : Int) fresh.node).getD []
  let list0 := (realloc sg.ordered_list_of_nodes (node_n : Int) fresh.ident).getD []
  let feat0 := sg.feat_data.bind fun m =>
    realloc m ((node_n : Int) * sg.feat_n) fresh.cell
  if node_n > old_n then
    (mem_write node0 (old_n : Int) (List.replicate (node_n - old_n) snode_0xFF)).bind fun node1 =>
    (mem_write list0 (old_n : Int) (List.replicate (node_n - old_n) (-1))).bind fun list1 =>
    match feat0 with
    | none => some (node1, list1, none)
    | some m =>
      (mem_write m ((old_n : Int) * sg.feat_n)
        (List.replicate (node_n - old_n) fval.nan)).bind fun m1 =>
      some (node1, list1, some m1)
  else some (node0, list0, feat0)

/-- Second part of `subgraph_resize` (subgraph.c:316-326): the new nodes are
cleared and take their index as position, then every `feat` pointer is set
again when there is a feature block. -/
def resize_nodes (sg : subgraph R) (node_n : Nat) (node1 : List (snode R))
    (has_feat : Bool) : List (snode R) :=
  let old_n := sg.node_n
  let node2 := for_upto
    (fun t nd =>
      upd (upd nd (old_n + t) snode_clear)
        (old_n + t) (fun x => { x with position := ((old_n + t : Nat) : Int) }))
    (node_n - old_n) node1
  if has_feat then
    for_upto
      (fun i nd => upd nd i (fun x => { x with feat := .view ((i : Int) * sg.feat_n) }))
      node_n node2
  else node2

/-- Last part of `subgraph_resize` (subgraph.c:328-342): the new table `dt`,
filled from the old one.  Here `sg` has the new node count and nodes and still
the old table and stride. -/
def resize_pdist (sg : subgraph R) (node_n : Nat) : Option (List (fval R)) :=
  let dt0 : List (fval R) := List.replicate (sg.node_n * sg.node_n) (.num 0)
  for_uptoM
    (fun i dt1 =>
      for_uptoM
        (fun j dt2 =>
          (sg.node[i]?).bind fun ni =>
          (sg.node[j]?).bind fun nj =>
          (PDISTANCE sg ni.position nj.position).bind fun d =>
          some (dt2.set (i * node_n + j) d))
        sg.node_n dt1)
    sg.node_n dt0

/-- Function `subgraph_resize` (subgraph.c:291-343).  `none` is a run that
writes or reads outside a block. -/
def subgraph_resize (fresh : fresh_mem R) (sg : subgraph R) (node_n : Nat) :
    Option (subgraph R) :=
  (resize_arrays fresh sg node_n).bind fun a =>
  let sg1 : subgraph R :=
    { sg with
      node_n := node_n
      node := resize_nodes sg node_n a.1 a.2.2.isSome
      ordered_list_of_nodes := a.2.1
      feat_data := a.2.2 }
  match sg1.pdist with
  | none => some sg1
  | some _ =>
    (resize_pdist sg1 node_n).bind fun dt =>
    some { sg1 with pdist := some dt, pdist_train_stride := (node_n : Int) }

end resize

/-! ## Node copy and swap -/

/-- Modelled from the spec: the function `set_clone` of the set module, which
is not among the sources: a deep clone, an independent chain with the same
identifier sequence. -/
def set_clone (s : List Int) : List Int := s

/-- Function `snode_copy` (subgraph.c:47-64), for two distinct records.  `sg` is
the sub-graph whose feature block `src->feat` may point into.  The block that
`alloc_float (feat_n)` returns and `memcpy` fills holds the `feat_n` cells read
at `src->feat`; `none` is a read outside the block behind `src->feat`.
Returns the two records, `dest` first. -/
def snode_copy {R : Type} (sg : subgraph R) (dest src : snode R) (feat_n : Int) :
    Option (snode R × snode R) :=
  (feat_cells sg src.feat feat_n).bind fun cells =>
  some
    ({ dest with
        feat := .own cells
        path_val := src.path_val
        dens := src.dens
        label := src.label
        root := src.root
        pred := src.pred
        label_true := src.label_true
        position := src.position
        status := src.status
        radius := src.radius
        nplatadj := src.nplatadj
        adj := set_clone src.adj },
      src)

/-- Function `snode_swap` (subgraph.c:66-75): the records in the two slots
after the call. -/
def snode_swap {R : Type} (a b : snode R) : snode R × snode R :=
  let tmp := a
  (b, tmp)

/-! ## Destruction -/

/-- A block released by `subgraph_destroy`. -/
inductive released where
  | feat_data : released
  | pdist : released
  | adj : Nat → released
  | node : released
  | ordered_list_of_nodes : released
  | sg : released
  deriving DecidableEq

/-- Function `subgraph_destroy` (subgraph.c:114-138) on the handle `*sg`
(`none` is `NULL`): the handle after the call and the blocks released, in
order.  The outer `none` is a read outside the node array. -/
def subgraph_destroy {R : Type} (handle : Option (subgraph R)) :
    Option (Option (subgraph R) × List released) :=
  match handle with
  | none => some (none, [])
  | some sg =>
    let r1 : List released := if sg.feat_data.isSome then [.feat_data] else []
    let r2 : List released := if sg.pdist.isSome then r1 ++ [.pdist] else r1
    (for_uptoM
      (fun i (r : List released) =>
        (sg.node[i]?).bind fun x =>
        if x.adj ≠ [] then some (r ++ [.adj i]) else some r)
      sg.node_n r2).map
    fun r3 => (none, r3 ++ [.node, .ordered_list_of_nodes, .sg])

/-! ## Metric selection and precomputed distances -/

/-- Modelled from the spec: the type `enum METRIC` of `metrics.h`, which is not
among the sources: the nine enumerators that `subgraph_set_metric` names, and
`other v` for every other value of the type. -/
inductive METRIC where
  | EUCLIDIAN : METRIC
  | LOG_EUCLIDIAN : METRIC
  | CHI_SQUARE : METRIC
  | MANHATTAN : METRIC
  | CANBERRA : METRIC
  | SQUARED_CHORD : METRIC
  | SQUARED_CHI_SQUARE : METRIC
  | BRAY_CURTIS : METRIC
  | NO_METRIC : METRIC
  | other : Int → METRIC
  deriving DecidableEq

/-- The distance functions of `metrics.h` that `subgraph_set_metric` refers to;
their bodies are not among the sources and they are a parameter. -/
structure metric_catalog (R : Type) where
  d_eucl : List (fval R) → List (fval R) → Int → fval R
  d_eucl_log : List (fval R) → List (fval R) → Int → fval R
  d_chi_square : List (fval R) → List (fval R) → Int → fval R
  d_manhattan : List (fval R) → List (fval R) → Int → fval R
  d_canberra : List (fval R) → List (fval R) → Int → fval R
  d_squared_chord : List (fval R) → List (fval R) → Int → fval R
  d_squared_chi_square : List (fval R) → List (fval R) → Int → fval R
  d_bray_curtis : List (fval R) → List (fval R) → Int → fval R

/-- Modelled from the spec: the call `error (msg)` of `common.h`, which is not
among the sources, is fatal.  A function that may call it either returns with
a state (`done`) or stops with the message and the state reached (`fatal`). -/
inductive outcome (σ : Type) where
  | done : σ → outcome σ
  | fatal : String → σ → outcome σ

/-- Function `subgraph_set_metric` (subgraph.c:164-210). -/
def subgraph_set_metric {R : Type} (cat : metric_catalog R) (sg : subgraph R)
    (arc_weight : arcptr R) (m : METRIC) : outcome (subgraph R) :=
  match arc_weight with
  | .fn f => .done { sg with arc_weight := .fn f }
  | .wild => .done { sg with arc_weight := .wild }
  | .null =>
    match m with
    | .EUCLIDIAN => .done { sg with arc_weight := .fn cat.d_eucl }
    | .LOG_EUCLIDIAN => .done { sg with arc_weight := .fn cat.d_eucl_log }
    | .CHI_SQUARE => .done { sg with arc_weight := .fn cat.d_chi_square }
    | .MANHATTAN => .done { sg with arc_weight := .fn cat.d_manhattan }
    | .CANBERRA => .done { sg with arc_weight := .fn cat.d_canberra }
    | .SQUARED_CHORD => .done { sg with arc_weight := .fn cat.d_squared_chord }
    | .SQUARED_CHI_SQUARE => .done { sg with arc_weight := .fn cat.d_squared_chi_square }
    | .BRAY_CURTIS => .done { sg with arc_weight := .fn cat.d_bray_curtis }
    | .NO_METRIC => .done { sg with arc_weight := .null }
    | .other _ => .fatal "Undefinied metric" sg

/-- Function `subgraph_set_precomputed_distance` (subgraph.c:213-232).  The
cell count `node_n * node_n` is computed in `int`.  The flag `alloc` says
whether `calloc` returns a block (it cannot for a negative count, which is
converted to a size beyond every block); `label = none` is the `NULL` label
argument.  Returns the `TRUE`/`FALSE` result with the sub-graph; `none` is a
read outside `dist` or `label`. -/
def subgraph_set_precomputed_distance {R : Type} (alloc : Bool) (sg : subgraph R)
    (dist : List (fval R)) (label : Option (List Int)) : Option (Bool × subgraph R) :=
  let sg1 : subgraph R := { sg with pdist_train_stride := (sg.node_n : Int) }
  let count := wrap_int ((sg.node_n : Int) * (sg.node_n : Int))
  if !alloc || count < 0 then some (false, { sg1 with pdist := none })
  else
    -- memcpy (sg->pdist, dist, ..) fills the whole block of `count` cells
    (mem_read dist 0 count).bind fun cells =>
    let sg2 : subgraph R := { sg1 with pdist := some cells }
    match label with
    | none => some (true, sg2)
    | some lab =>
      (for_uptoM
        (fun i (nd : List (snode R)) =>
          (lab[i]?).bind fun l => some (upd nd i fun x => { x with label_true := l }))
        sg2.node_n sg2.node).map
      fun nd => (true, { sg2 with node := nd })

/-! ## Sample inputs -/

/-- Two nodes at distance 100 in a precomputed table; node 0 has node 1 in its
adjacency, node 1 has an empty adjacency; `df = 9/2`, so `k = 1`. -/
def far_pair {R : Type} [LinearOrderedField R] : subgraph R :=
  { node_n := 2
    node :=
      [{ snode_clear snode_0xFF with position := 0, adj := [1] },
       { snode_clear snode_0xFF with position := 1 }]
    ordered_list_of_nodes := [-1, -1]
    feat_data := none
    feat_n := -1
    pdist := some [.num 0, .num 100, .num 100, .num 0]
    pdist_train_stride := 2
    arc_weight := .null
    df := .num (9 / 2)
    k := .nan
    dens_min := .nan
    dens_max := .nan }

/-- Contents of added memory used in the samples. -/
def junk_mem {R : Type} : fresh_mem R :=
  { node := fun _ => snode_0xFF, ident := fun _ => 0, cell := fun _ => .nan }

/-- An explicit distance function for one feature: `|a - b|`. -/
def d_abs {R : Type} [LinearOrderedField R] : List (fval R) → List (fval R) → Int → fval R
  | [.num a], [.num b], _ => .num |a - b|
  | _, _, _ => .nan

/-- The end-to-end example of the specification: three nodes with the features
0, 1 and 10, the nodes 0 and 1 in each other's adjacency, `df = 9/2`, so
`k = 1`. -/
def line_three {R : Type} [LinearOrderedField R] : subgraph R :=
  { node_n := 3
    node :=
      [{ snode_clear snode_0xFF with position := 0, feat := .view 0, adj := [1] },
       { snode_clear snode_0xFF with position := 1, feat := .view 1, adj := [0] },
       { snode_clear snode_0xFF with position := 2, feat := .view 2 }]
    ordered_list_of_nodes := [-1, -1, -1]
    feat_data := some [.num 0, .num 1, .num 10]
    feat_n := 1
    pdist := none
    pdist_train_stride := INT_MAX
    arc_weight := .fn d_abs
    df := .num (9 / 2)
    k := .nan
    dens_min := .nan
    dens_max := .nan }

/-- Two nodes with a precomputed table that is not symmetric (1 from node 0
to node 1, 2 back) and the symmetric distance function `d_abs` selected. -/
def skew_pair {R : Type} [LinearOrderedField R] : subgraph R :=
  { (far_pair : subgraph R) with
    pdist := some [.num 0, .num 1, .num 2, .num 0]
    arc_weight := .fn d_abs }

/-! ## Lemmas on arrays and loops -/

@[simp] theorem length_upd {α : Type} (a : List α) (i : Nat) (f : α → α) :
    (upd a i f).length = a.length := by
  unfold upd
  split <;> simp

theorem getElem?_upd {α : Type} (a : List α) (i j : Nat) (f : α → α) :
    (upd a i f)[j]? = if j = i then a[i]?.map f else a[j]? := by
  unfold upd
  split
  · rename_i x hx
    by_cases h : j = i
    · subst h
      have hlt : j < a.length := (List.getElem?_eq_some.mp hx).1
      simp [hx, hlt]
    · have h2 : i ≠ j := fun e => h e.symm
      simp [h, h2]
  · rename_i hx
    by_cases h : j = i
    · subst h; simp [hx]
    · simp [h]

theorem upd_upd {α : Type} (a : List α) (i : Nat) (f g : α → α) :
    upd (upd a i f) i g = upd a i (g ∘ f) := by
  apply List.ext_getElem?
  intro j
  simp only [getElem?_upd]
  by_cases h : j = i
  · subst h; simp
  · simp [h]

/-- A loop that assigns to the members of `a[o + t]` in turn `t`. -/
theorem getElem?_for_upto_upd {α : Type} (body : Nat → List α → List α) (o : Nat)
    (g : Nat → α → α) (hbody : ∀ t nd, body t nd = upd nd (o + t) (g t))
    (n : Nat) (a : List α) (j : Nat) :
    (for_upto body n a)[j]? =
      if o ≤ j ∧ j < o + n then a[j]?.map (g (j - o)) else a[j]? := by
  induction n with
  | zero =>
    have h : ¬ (o ≤ j ∧ j < o + 0) := by omega
    rw [if_neg h]
    rfl
  | succ n ih =>
    simp only [for_upto, hbody, getElem?_upd]
    by_cases h : j = o + n
    · subst h
      have h1 : ¬ (o ≤ o + n ∧ o + n < o + n) := by omega
      simp [ih, h1]
    · rw [if_neg h, ih]
      by_cases h2 : o ≤ j ∧ j < o + n
      · have h3 : o ≤ j ∧ j < o + (n + 1) := by omega
        rw [if_pos h2, if_pos h3]
      · have h3 : ¬ (o ≤ j ∧ j < o + (n + 1)) := by omega
        rw [if_neg h2, if_neg h3]

theorem length_for_upto_upd {α : Type} (body : Nat → List α → List α) (o : Nat)
    (g : Nat → α → α) (hbody : ∀ t nd, body t nd = upd nd (o + t) (g t))
    (n : Nat) (a : List α) : (for_upto body n a).length = a.length := by
  induction n with
  | zero => rfl
  | succ n ih => simp [for_upto, hbody, ih]

theorem getElem?_for_upto_upd2 {α : Type} (o : Nat) (f1 f2 : Nat → α → α) (n : Nat)
    (a : List α) (j : Nat) :
    (for_upto (fun t nd => upd (upd nd (o + t) (f1 t)) (o + t) (f2 t)) n a)[j]? =
      if o ≤ j ∧ j < o + n then a[j]?.map (f2 (j - o) ∘ f1 (j - o)) else a[j]? :=
  getElem?_for_upto_upd _ o (fun t => f2 t ∘ f1 t) (fun _ _ => upd_upd _ _ _ _) n a j

theorem getElem?_for_upto_upd2_zero {α : Type} (f1 f2 : Nat → α → α) (n : Nat)
    (a : List α) (j : Nat) :
    (for_upto (fun t nd => upd (upd nd t (f1 t)) t (f2 t)) n a)[j]? =
      if j < n then a[j]?.map (f2 j ∘ f1 j) else a[j]? := by
  have h := getElem?_for_upto_upd2 0 f1 f2 n a j
  simpa using h

/-! ## Arithmetic with not-a-number -/

@[simp] theorem fadd_num {R : Type} [LinearOrderedField R] (a b : R) :
    fadd (fval.num a) (fval.num b) = fval.num (a + b) := rfl

@[simp] theorem fadd_nan_left {R : Type} [LinearOrderedField R] (b : fval R) :
    fadd fval.nan b = fval.nan := rfl

@[simp] theorem fadd_nan_right {R : Type} [LinearOrderedField R] (a : fval R) :
    fadd a fval.nan = fval.nan := by
  cases a <;> rfl

@[simp] theorem fsub_num {R : Type} [LinearOrderedField R] (a b : R) :
    fsub (fval.num a) (fval.num b) = fval.num (a - b) := rfl

@[simp] theorem fmul_num {R : Type} [LinearOrderedField R] (a b : R) :
    fmul (fval.num a) (fval.num b) = fval.num (a * b) := rfl

@[simp] theorem fneg_num {R : Type} [LinearOrderedField R] (a : R) :
    fneg (fval.num a) = fval.num (-a) := rfl

@[simp] theorem fexp_num {R : Type} (expf : R → R) (a : R) :
    fexp expf (fval.num a) = fval.num (expf a) := rfl

theorem fdiv_num {R : Type} [LinearOrderedField R] (a b : R) (h : b ≠ 0) :
    fdiv (fval.num a) (fval.num b) = fval.num (a / b) := by
  simp [fdiv, h]

theorem fadd_assoc {R : Type} [LinearOrderedField R] (a b c : fval R) :
    fadd (fadd a b) c = fadd a (fadd b c) := by
  cases a <;> cases b <;> cases c <;> simp [add_assoc]

theorem fadd_zero_left {R : Type} [LinearOrderedField R] (a : fval R) :
    fadd (fval.num 0) a = a := by
  cases a <;> simp

theorem fadd_zero_right {R : Type} [LinearOrderedField R] (a : fval R) :
    fadd a (fval.num 0) = a := by
  cases a <;> simp

/-! ## Creation -/

/-- Claim C1.  When the three allocations succeed, `subgraph_create node_n`
returns a sub-graph with `node_n` nodes; node `i` has label, true label, root
and predecessor -1, density, path value and radius not-a-number, an empty
adjacency, status 0, `nplatadj` 0, no feature view and position `i`; the
feature block and the distance matrix are absent. -/
theorem subgraph_create_cleared {R : Type} (node_n : Nat) :
    ∃ sg : subgraph R, subgraph_create true true true node_n = some sg ∧
      sg.node_n = node_n ∧ sg.node.length = node_n ∧
      sg.feat_data = none ∧ sg.pdist = none ∧
      ∀ i : Nat, i < node_n → ∃ x : snode R, sg.node[i]? = some x ∧
        x.label = -1 ∧ x.label_true = -1 ∧ x.root = -1 ∧ x.pred = -1 ∧
        x.dens = fval.nan ∧ x.path_val = fval.nan ∧ x.radius = fval.nan ∧
        x.adj = [] ∧ x.status = 0 ∧ x.nplatadj = 0 ∧ x.feat = featptr.null ∧
        x.position = (i : Int) := by
  have hbody : ∀ (t : Nat) (nd : List (snode R)),
      (fun i nd => upd (upd nd i snode_clear) i
        (fun x => { x with position := (i : Int) })) t nd =
      upd nd (0 + t) ((fun (t : Nat) (x : snode R) =>
        { snode_clear x with position := (t : Int) }) t) := by
    intro t nd
    simp only [upd_upd, Nat.zero_add]
    rfl
  refine ⟨_, by simp [subgraph_create]; rfl, rfl, ?_, rfl, rfl, ?_⟩
  · simp [length_for_upto_upd _ 0 _ hbody]
  · intro i hi
    refine ⟨{ snode_clear snode_0xFF with position := (i : Int) }, ?_, ?_⟩
    · have hlt : 0 ≤ i ∧ i < 0 + node_n := by omega
      simp only [getElem?_for_upto_upd _ 0 _ hbody, if_pos hlt]
      simp [hi]
    · simp [snode_clear, NIL]

/-! ## Feature assignment -/

theorem mem_read_nat {α : Type} (m : List α) (off n : Nat) (h : off + n ≤ m.length) :
    mem_read m (off : Int) (n : Int) = some ((m.drop off).take n) := by
  unfold mem_read
  have h1 : (0:Int) ≤ (off:Int) ∧ (0:Int) ≤ (n:Int) ∧
      (off:Int) + (n:Int) ≤ (m.length : Int) := by
    refine ⟨by omega, by omega, by omega⟩
  rw [if_pos h1]
  simp

theorem mem_write_nat {α : Type} (m : List α) (off : Nat) (src : List α)
    (h : off + src.length ≤ m.length) :
    mem_write m (off : Int) src = some (m.take off ++ src ++ m.drop (off + src.length)) := by
  unfold mem_write
  have h1 : (0:Int) ≤ (off:Int) ∧ (off:Int) + (src.length:Int) ≤ (m.length : Int) := by
    refine ⟨by omega, by omega⟩
  rw [if_pos h1]
  simp

theorem length_mem_read {α : Type} (m : List α) (off n : Int) (v : List α)
    (h : mem_read m off n = some v) : (v.length : Int) = n ∧ 0 ≤ n := by
  unfold mem_read at h
  split at h
  · rename_i hc
    simp only [Option.some.injEq] at h
    subst h
    rw [List.length_take, List.length_drop]
    omega
  · simp at h

theorem mem_read_self {α : Type} (v : List α) (n : Int) (h : (v.length : Int) = n) :
    mem_read v 0 n = some v := by
  unfold mem_read
  have hc : (0 : Int) ≤ 0 ∧ 0 ≤ n ∧ 0 + n ≤ (v.length : Int) := by omega
  rw [if_pos hc]
  have : n.toNat = v.length := by omega
  simp [this]

/-- A write that is defined lies inside the array and keeps its length. -/
theorem mem_write_some {α : Type} (m : List α) (off : Int) (src b : List α)
    (h : mem_write m off src = some b) :
    0 ≤ off ∧ off + (src.length : Int) ≤ (m.length : Int) ∧ b.length = m.length := by
  unfold mem_write at h
  split at h
  · rename_i hc
    simp only [Option.some.injEq] at h
    subst h
    refine ⟨hc.1, hc.2, ?_⟩
    simp only [List.length_append, List.length_take, List.length_drop]
    omega
  · simp at h

/-- An `int` product that fits 32 bits is the product. -/
theorem wrap_int_eq (x : Int) (h0 : 0 ≤ x) (h1 : x < 2147483648) : wrap_int x = x := by
  unfold wrap_int
  have hr : (x % 4294967296).toNat = x.toNat := by omega
  have hlt : x.toNat < 2147483648 := by omega
  simp only [hr, if_pos hlt]
  omega

theorem wrap_int_lt (x : Int) : wrap_int x < 2147483648 := by
  unfold wrap_int
  dsimp only
  split <;> omega

/-- State of the loop of `subgraph_set_feature` after `m` rounds: the first `m`
rows of the block are the first `m` rows of `feat`, and the first `m` nodes
point to their chunk and hold their label. -/
theorem set_feature_loop {R : Type} (node : List (snode R)) (feat : List (fval R))
    (label : Option (List Int)) (F N : Nat) (hfeat : N * F ≤ feat.length)
    (hb : N * F < 2147483648)
    (hlab : ∀ lab, label = some lab → N ≤ lab.length) (m : Nat) (hm : m ≤ N) :
    for_uptoM (set_feature_step feat label (F : Int)) m
        (List.replicate (N * F) fval.nan, node) =
      some (feat.take (m * F) ++ List.replicate (N * F - m * F) fval.nan,
        for_upto (fun i nd => upd nd (0 + i) (fun x =>
          { x with
            feat := .view ((i : Int) * (F : Int))
            label_true := (label.map fun lab => lab.getD i 0).getD x.label_true }))
          m node) := by
  induction m with
  | zero => simp [for_uptoM, for_upto]
  | succ m ih =>
    have hm1 : m ≤ N := by omega
    have hmul : (m + 1) * F ≤ N * F := Nat.mul_le_mul_right F hm
    have hsucc : (m + 1) * F = m * F + F := by ring
    have hmF : m * F + F ≤ feat.length := by omega
    show (for_uptoM (set_feature_step feat label (F : Int)) m
      (List.replicate (N * F) fval.nan, node)).bind (set_feature_step feat label (F : Int) m) = _
    rw [ih hm1, Option.some_bind, for_upto]
    unfold set_feature_step
    have e1 : wrap_int ((F : Int) * (m : Int)) = ((m * F : Nat) : Int) := by
      have e : (F : Int) * (m : Int) = ((m * F : Nat) : Int) := by push_cast; ring
      rw [e]
      exact wrap_int_eq _ (by omega) (by omega)
    have e2 : wrap_int ((m : Int) * (F : Int)) = ((m * F : Nat) : Int) := by
      have e : (m : Int) * (F : Int) = ((m * F : Nat) : Int) := by push_cast; ring
      rw [e]
      exact wrap_int_eq _ (by omega) (by omega)
    rw [e1, e2]
    clear e1 e2 hb
    rw [mem_read_nat _ _ _ hmF, Option.some_bind]
    have hl : (List.take (m * F) feat).length = m * F := by
      rw [List.length_take]; omega
    have hl2 : (List.take F (List.drop (m * F) feat)).length = F := by
      rw [List.length_take, List.length_drop]; omega
    have hw : m * F + (List.take F (List.drop (m * F) feat)).length ≤
        (List.take (m * F) feat ++ List.replicate (N * F - m * F) fval.nan).length := by
      rw [hl2, List.length_append, hl, List.length_replicate]; omega
    rw [mem_write_nat _ _ _ hw, Option.some_bind]
    have hblock :
        List.take (m * F)
            (List.take (m * F) feat ++ List.replicate (N * F - m * F) fval.nan) ++
          List.take F (List.drop (m * F) feat) ++
        List.drop (m * F + (List.take F (List.drop (m * F) feat)).length)
          (List.take (m * F) feat ++ List.replicate (N * F - m * F) fval.nan) =
        List.take ((m + 1) * F) feat ++ List.replicate (N * F - (m + 1) * F) fval.nan := by
      rw [hl2, List.take_append_of_le_length (by omega), List.take_take, Nat.min_self,
        List.drop_append_eq_append_drop, hl, hsucc, List.take_add]
      have h0 : List.drop (m * F + F) (List.take (m * F) feat) = [] := by
        apply List.drop_eq_nil_of_le; omega
      have h1 : m * F + F - m * F = F := by omega
      have h2 : N * F - m * F - F = N * F - (m * F + F) := by omega
      rw [h0, h1, List.drop_replicate, h2]
      simp
    rw [hblock]
    cases label with
    | none => simp [upd_upd]
    | some lab =>
      have hl := hlab lab rfl
      have : m < lab.length := by omega
      simp [upd_upd, this]
      rfl

/-- The result of `subgraph_set_feature` when its allocation succeeds: the
block holds the `node_n` rows of the input and every node points to its row. -/
theorem subgraph_set_feature_attached {R : Type} (sg : subgraph R) (feat : List (fval R))
    (label : Option (List Int)) (F : Nat)
    (hnode : sg.node.length = sg.node_n)
    (hfeat : sg.node_n * F ≤ feat.length)
    (hb : sg.node_n * F < 2147483648)
    (hlab : ∀ lab, label = some lab → sg.node_n ≤ lab.length) :
    ∃ sg1 : subgraph R,
      subgraph_set_feature true sg feat label (F : Int) = some (true, sg1) ∧
      sg1.node_n = sg.node_n ∧ sg1.node.length = sg.node_n ∧ sg1.pdist = sg.pdist ∧
      sg1.feat_n = (F : Int) ∧ sg1.feat_data = some (feat.take (sg.node_n * F)) ∧
      ∀ i, i < sg.node_n → ∃ x x1, sg.node[i]? = some x ∧ sg1.node[i]? = some x1 ∧
        x1.feat = featptr.view ((i : Int) * (F : Int)) ∧
        x1.label_true = (label.map fun lab => lab.getD i 0).getD x.label_true := by
  have hloop := set_feature_loop sg.node feat label F sg.node_n hfeat hb hlab sg.node_n
    (le_refl _)
  have hw : wrap_int ((sg.node_n : Int) * (F : Int)) = ((sg.node_n * F : Nat) : Int) := by
    rw [← Nat.cast_mul]
    exact wrap_int_eq _ (by omega) (by omega)
  have hneg : ¬ (wrap_int ((sg.node_n : Int) * (F : Int)) < 0) := by
    rw [hw]; omega
  have hcast : (wrap_int ((sg.node_n : Int) * (F : Int))).toNat = sg.node_n * F := by
    rw [hw]; exact Int.toNat_natCast _
  have hbody : ∀ (t : Nat) (nd : List (snode R)),
      (fun i nd => upd nd (0 + i) (fun x : snode R =>
          { x with
            feat := .view ((i : Int) * (F : Int))
            label_true := (label.map fun lab => lab.getD i 0).getD x.label_true })) t nd =
      upd nd (0 + t) ((fun (i : Nat) (x : snode R) =>
          { x with
            feat := .view ((i : Int) * (F : Int))
            label_true := (label.map fun lab => lab.getD i 0).getD x.label_true }) t) :=
    fun _ _ => rfl
  refine ⟨{ sg with
      feat_n := (F : Int)
      feat_data := some (feat.take (sg.node_n * F) ++
        List.replicate (sg.node_n * F - sg.node_n * F) fval.nan)
      node := for_upto (fun i nd => upd nd (0 + i) (fun x : snode R =>
          { x with
            feat := .view ((i : Int) * (F : Int))
            label_true := (label.map fun lab => lab.getD i 0).getD x.label_true }))
        sg.node_n sg.node }, ?_, rfl, ?_, rfl, rfl, ?_, ?_⟩
  · simp only [subgraph_set_feature, Bool.not_true, Bool.false_or, decide_eq_true_eq, hneg,
      if_false, hcast, hloop, Option.map_some']
  · dsimp only
    rw [length_for_upto_upd _ 0 _ hbody, hnode]
  · simp
  · intro i hi
    have hi2 : 0 ≤ i ∧ i < 0 + sg.node_n := by omega
    have hil : i < sg.node.length := by omega
    have hnd := getElem?_for_upto_upd _ 0 _ hbody sg.node_n sg.node i
    rw [if_pos hi2, List.getElem?_eq_getElem hil] at hnd
    simp only [Option.map_some', Nat.sub_zero] at hnd
    exact ⟨sg.node[i], _, List.getElem?_eq_getElem hil, hnd, rfl, rfl⟩

/-- Every round of the loop of `subgraph_set_feature` that is defined writes
inside the block: after `m` rounds the block has its length and holds `m` rows. -/
theorem set_feature_loop_bound {R : Type} (feat : List (fval R)) (label : Option (List Int))
    (F : Nat) (b0 : List (fval R)) (node0 : List (snode R)) (hB : b0.length < 2147483648)
    (m : Nat) (st : List (fval R) × List (snode R))
    (h : for_uptoM (set_feature_step feat label (F : Int)) m (b0, node0) = some st) :
    st.1.length = b0.length ∧ m * F ≤ b0.length := by
  induction m generalizing st with
  | zero =>
    have e : (b0, node0) = st := Option.some.inj h
    subst e
    exact ⟨rfl, by omega⟩
  | succ m ih =>
    have h1 : (for_uptoM (set_feature_step feat label (F : Int)) m (b0, node0)).bind
        (set_feature_step feat label (F : Int) m) = some st := h
    cases hprev : for_uptoM (set_feature_step feat label (F : Int)) m (b0, node0) with
    | none => rw [hprev] at h1; exact absurd h1 (by simp)
    | some st0 =>
      obtain ⟨hlen, hmF⟩ := ih st0 hprev
      rw [hprev, Option.some_bind] at h1
      unfold set_feature_step at h1
      cases hrow : mem_read feat (wrap_int ((F : Int) * (m : Int))) (F : Int) with
      | none => rw [hrow] at h1; exact absurd h1 (by simp)
      | some row =>
        rw [hrow, Option.some_bind] at h1
        have hrl := (length_mem_read _ _ _ _ hrow).1
        have e2 : wrap_int ((m : Int) * (F : Int)) = ((m * F : Nat) : Int) := by
          have e : (m : Int) * (F : Int) = ((m * F : Nat) : Int) := by push_cast; ring
          rw [e]
          exact wrap_int_eq _ (by omega) (by omega)
        rw [e2] at h1
        cases hblk : mem_write st0.1 ((m * F : Nat) : Int) row with
        | none => rw [hblk] at h1; exact absurd h1 (by simp)
        | some block =>
          rw [hblk, Option.some_bind] at h1
          obtain ⟨-, hin, hbl⟩ := mem_write_some _ _ _ _ hblk
          have hst : st.1 = block := by
            cases label with
            | none =>
              have := Option.some.inj h1
              rw [← this]
            | some lab =>
              dsimp only at h1
              cases hl : lab[m]? with
              | none => rw [hl] at h1; exact absurd h1 (by simp)
              | some l =>
                rw [hl, Option.some_bind] at h1
                have := Option.some.inj h1
                rw [← this]
          have hsucc : (m + 1) * F = m * F + F := by ring
          rw [hst, hbl, hlen]
          refine ⟨rfl, ?_⟩
          omega

/-- A call of `subgraph_set_feature` that returns `TRUE` had its block
allocated and a cell count `node_n * feat_n` that fits `int`: with a count that
wraps, the call returns `FALSE` or one of its writes is outside the block. -/
theorem subgraph_set_feature_bound {R : Type} (alloc : Bool) (sg sg1 : subgraph R)
    (feat : List (fval R)) (label : Option (List Int)) (F : Nat)
    (h : subgraph_set_feature alloc sg feat label (F : Int) = some (true, sg1)) :
    alloc = true ∧ sg.node_n * F < 2147483648 := by
  unfold subgraph_set_feature at h
  dsimp only at h
  by_cases hc : (!alloc || decide (wrap_int ((sg.node_n : Int) * (F : Int)) < 0)) = true
  · rw [if_pos hc] at h
    have h2 := congrArg Prod.fst (Option.some.inj h)
    exact absurd h2 Bool.false_ne_true
  · rw [if_neg hc] at h
    have ha : alloc = true := by
      cases alloc with
      | true => rfl
      | false => exact absurd rfl hc
    have hlt := wrap_int_lt ((sg.node_n : Int) * (F : Int))
    cases hloop : for_uptoM (set_feature_step feat label (F : Int)) sg.node_n
        (List.replicate (wrap_int ((sg.node_n : Int) * (F : Int))).toNat fval.nan, sg.node) with
    | none => rw [hloop] at h; exact absurd h (by simp)
    | some st =>
      have hb := (set_feature_loop_bound feat label F _ sg.node
        (by rw [List.length_replicate]; omega) sg.node_n st hloop).2
      rw [List.length_replicate] at hb
      exact ⟨ha, by omega⟩

/-- The feature vector of a node that points to its row of a block holding the
rows of `feat`. -/
theorem feature_vector_attached {R : Type} (sg1 : subgraph R) (feat : List (fval R))
    (N F i : Nat) (x1 : snode R)
    (hfd : sg1.feat_data = some (feat.take (N * F))) (hfn : sg1.feat_n = (F : Int))
    (hx : sg1.node[i]? = some x1) (hv : x1.feat = featptr.view ((i : Int) * (F : Int)))
    (hi : i < N) (hfeat : N * F ≤ feat.length) :
    feature_vector sg1 i = some ((feat.drop (i * F)).take F) := by
  have hiF : i * F + F ≤ N * F := by
    have : (i + 1) * F ≤ N * F := Nat.mul_le_mul_right F hi
    have e : (i + 1) * F = i * F + F := by ring
    omega
  have e2 : (i : Int) * (F : Int) = ((i * F : Nat) : Int) := by push_cast; ring
  unfold feature_vector
  rw [hx]
  simp only [Option.some_bind, feat_cells, hv, hfd, hfn]
  rw [e2, mem_read_nat _ _ _ (by rw [List.length_take]; omega)]
  simp only [List.drop_take, List.take_take]
  congr 2
  omega

/-- Claim C2.  On a sub-graph with `node_n` nodes, for a row-major input with
`node_n * feat_n` values (and `node_n` labels when labels are given): after
every call of `subgraph_set_feature` that returns `TRUE`, `feat_n` is the
argument, the feature vector of node `i` is the row `i` of the input, and
`label_true` of node `i` is `label[i]` with labels and is unchanged without.
The call returns `TRUE` when its allocation succeeds and the cell count
`node_n * feat_n` fits `int`. -/
theorem subgraph_set_feature_rows {R : Type} (sg : subgraph R) (feat : List (fval R))
    (label : Option (List Int)) (F : Nat)
    (hnode : sg.node.length = sg.node_n)
    (hfeat : sg.node_n * F ≤ feat.length)
    (hlab : ∀ lab, label = some lab → sg.node_n ≤ lab.length) :
    (sg.node_n * F < 2147483648 →
      ∃ sg1, subgraph_set_feature true sg feat label (F : Int) = some (true, sg1)) ∧
    ∀ (alloc : Bool) (sg1 : subgraph R),
      subgraph_set_feature alloc sg feat label (F : Int) = some (true, sg1) →
      sg1.feat_n = (F : Int) ∧ sg1.node_n = sg.node_n ∧
      ∀ i : Nat, i < sg.node_n →
        feature_vector sg1 i = some ((feat.drop (i * F)).take F) ∧
        (∀ lab, label = some lab → (sg1.node[i]?).map (fun x => x.label_true) = lab[i]?) ∧
        (label = none →
          (sg1.node[i]?).map (fun x => x.label_true) =
            (sg.node[i]?).map (fun x => x.label_true)) := by
  refine ⟨fun hb => ?_, fun alloc sg1 hset => ?_⟩
  · obtain ⟨sg1, hset, -⟩ := subgraph_set_feature_attached sg feat label F hnode hfeat hb hlab
    exact ⟨sg1, hset⟩
  obtain ⟨halloc, hb⟩ := subgraph_set_feature_bound alloc sg sg1 feat label F hset
  subst halloc
  obtain ⟨sgA, hA, hn, -, -, hfn, hfd, hnodes⟩ :=
    subgraph_set_feature_attached sg feat label F hnode hfeat hb hlab
  rw [hA] at hset
  have hsg : sgA = sg1 := (Prod.mk.inj (Option.some.inj hset)).2
  subst hsg
  refine ⟨hfn, hn, fun i hi => ?_⟩
  obtain ⟨x, x1, hx, hx1, hv, hl⟩ := hnodes i hi
  refine ⟨feature_vector_attached sgA feat sg.node_n F i x1 hfd hfn hx1 hv hi hfeat, ?_, ?_⟩
  · intro lab hlab1
    subst hlab1
    have := hlab lab rfl
    have hlt : i < lab.length := by omega
    rw [hx1]
    simp [hl, hlt]
  · intro hnone
    subst hnone
    rw [hx1, hx]
    simp [hl]

/-- Witness of claim C2: two rows of two features and two labels on the sample
`far_pair`. -/
theorem subgraph_set_feature_rows_witness :
    ∃ sg1 : subgraph ℚ,
      subgraph_set_feature true far_pair [.num 1, .num 2, .num 3, .num 4] (some [5, 6])
        ((2 : Nat) : Int) = some (true, sg1) ∧
      sg1.feat_n = 2 ∧ sg1.node_n = 2 ∧
      feature_vector sg1 1 = some [.num 3, .num 4] ∧
      (sg1.node[1]?).map (fun x => x.label_true) = some 6 := by
  have hthm := subgraph_set_feature_rows (far_pair : subgraph ℚ)
    [.num 1, .num 2, .num 3, .num 4] (some [5, 6]) 2 rfl (by decide)
    (by intro lab h; cases h; decide)
  obtain ⟨sg1, h1⟩ := hthm.1 (by decide)
  obtain ⟨h2, h3, h4⟩ := hthm.2 true sg1 h1
  obtain ⟨h5, h6, -⟩ := h4 1 (by decide)
  exact ⟨sg1, h1, h2, h3, h5, h6 [5, 6] rfl⟩

/-! ## Density evaluation -/

/-- The adjacency loop adds, to its accumulator, the sum of the kernel terms
over the chain and, to its counter, the length of the chain. -/
theorem pdf_adj_loop_eq {R : Type} [LinearOrderedField R] (expf : R → R) (sg : subgraph R)
    (ni : snode R) (adj : List Int) (v : fval R) (nelems : Int) :
    pdf_adj_loop expf sg ni adj v nelems =
      (adj_distances sg ni adj).bind fun ds =>
      some (fadd v ((ds.map fun d => fexp expf (fdiv (fneg d) sg.k)).foldr fadd (.num 0)),
        nelems + (ds.length : Int)) := by
  induction adj generalizing v nelems with
  | nil => simp [pdf_adj_loop, adj_distances, fadd_zero_right]
  | cons e rest ih =>
    simp only [pdf_adj_loop, adj_distances, ih]
    cases h1 : at_int sg.node e with
    | none => simp
    | some nj =>
      simp only [Option.some_bind]
      cases h2 : subgraph_get_distance sg ni nj with
      | none => simp
      | some d =>
        simp only [Option.some_bind]
        cases h3 : adj_distances sg ni rest with
        | none => simp
        | some ds =>
          simp [fadd_assoc]
          ring

/-- The distances do not read the bandwidth or the extrema. -/
theorem adj_distances_frame {R : Type} (sg : subgraph R) (c a b : fval R) (ni : snode R)
    (adj : List Int) :
    adj_distances { sg with k := c, dens_min := a, dens_max := b } ni adj =
      adj_distances sg ni adj := by
  induction adj with
  | nil => rfl
  | cons e rest ih => simp only [adj_distances, ih]; rfl

theorem raw_density_frame {R : Type} [LinearOrderedField R] (expf : R → R) (sg : subgraph R)
    (c a b k : fval R) (i : Nat) :
    raw_density expf { sg with k := c, dens_min := a, dens_max := b } k i =
      raw_density expf sg k i := by
  simp only [raw_density, adj_distances_frame]

/-- One round of the first loop: only the extrema of the sub-graph change, and
`value[i]` becomes the raw density of node `i`. -/
theorem pdf_raw_step_eq {R : Type} [LinearOrderedField R] (expf : R → R) (sg0 : subgraph R)
    (a b : fval R) (value : List (fval R)) (i : Nat) (st : subgraph R × List (fval R))
    (h : pdf_raw_step expf i ({ sg0 with dens_min := a, dens_max := b }, value) = some st) :
    ∃ v a1 b1, raw_density expf sg0 sg0.k i = some v ∧
      st = ({ sg0 with dens_min := a1, dens_max := b1 }, value.set i v) := by
  unfold pdf_raw_step at h
  unfold raw_density
  have hfr : ∀ ni : snode R, ∀ adj : List Int,
      adj_distances { sg0 with dens_min := a, dens_max := b } ni adj =
        adj_distances sg0 ni adj := fun ni adj => adj_distances_frame sg0 sg0.k a b ni adj
  simp only [pdf_adj_loop_eq, hfr] at h
  cases h1 : sg0.node[i]? with
  | none => simp [h1] at h
  | some ni =>
    simp only [Option.some_bind]
    cases h2 : adj_distances sg0 ni ni.adj with
    | none => simp [h1, h2] at h
    | some ds =>
      simp only [h1, h2, Option.some_bind, Option.some.injEq, fadd_zero_left] at h
      simp only [h2, Option.some_bind]
      have hc : (((1 + (ds.length : Int) : Int)) : R) = 1 + (ds.length : R) := by
        push_cast; rfl
      rw [hc] at h
      split_ifs at h <;> exact ⟨_, _, _, rfl, h.symm⟩

/-- The first loop of `subgraph_pdf_evaluate`: only the two extrema of the
sub-graph change, and `value[i]` is the raw density of node `i` for every
round `i` that was run. -/
theorem pdf_raw_loop_eq {R : Type} [LinearOrderedField R] (expf : R → R) (sg0 : subgraph R)
    (value0 : List (fval R)) (n : Nat) (st : subgraph R × List (fval R))
    (h : for_uptoM (pdf_raw_step expf) n (sg0, value0) = some st) :
    (∃ a b, st.1 = { sg0 with dens_min := a, dens_max := b }) ∧
      st.2.length = value0.length ∧
      ∀ i, i < n → i < value0.length →
        ∃ v, raw_density expf sg0 sg0.k i = some v ∧ st.2[i]? = some v := by
  induction n generalizing st with
  | zero =>
    simp only [for_uptoM, Option.some.injEq] at h
    subst h
    exact ⟨⟨_, _, rfl⟩, rfl, fun i hi => absurd hi (Nat.not_lt_zero i)⟩
  | succ n ih =>
    simp only [for_uptoM] at h
    cases h1 : for_uptoM (pdf_raw_step expf) n (sg0, value0) with
    | none => simp [h1] at h
    | some st1 =>
      rw [h1] at h
      simp only [Option.some_bind] at h
      obtain ⟨⟨a, b, hsg⟩, hlen, hval⟩ := ih st1 h1
      obtain ⟨sg1, value1⟩ := st1
      simp only at hsg hlen hval
      subst hsg
      obtain ⟨v, a1, b1, hraw, hst⟩ := pdf_raw_step_eq expf sg0 a b value1 n st h
      subst hst
      refine ⟨⟨_, _, rfl⟩, by simp [hlen], ?_⟩
      intro i hi hil
      by_cases hin : i = n
      · subst hin
        refine ⟨v, hraw, ?_⟩
        have : i < value1.length := by omega
        simp [this]
      · obtain ⟨w, hw1, hw2⟩ := hval i (by omega) hil
        refine ⟨w, hw1, ?_⟩
        have hne : n ≠ i := fun e => hin e.symm
        simp [List.getElem?_set_ne hne, hw2]

/-- Claim C5.  When `subgraph_pdf_evaluate` ends with `dens_min = m`,
`dens_max = M` and `m ≠ M`, every node `i` whose raw density (the sum of
`exp (-distance (i, j) / k)` over its adjacency, divided by one plus the size of
the adjacency, with `k = 2 * df / 9`) is the number `r` ends with
`dens = (DENS_MAX - 1) * (r - m) / (M - m) + 1` and `path_val = dens - 1`. -/
theorem subgraph_pdf_evaluate_rescale {R : Type} [LinearOrderedField R] (D : R)
    (expf : R → R) (sg sg1 : subgraph R)
    (hnode : sg.node.length = sg.node_n)
    (h : subgraph_pdf_evaluate D expf sg = some sg1)
    (df m M : R) (hdf : sg.df = fval.num df)
    (hmin : sg1.dens_min = fval.num m) (hmax : sg1.dens_max = fval.num M) (hne : m ≠ M)
    (i : Nat) (hi : i < sg.node_n) (r : R)
    (hraw : raw_density expf sg (fval.num (2 * df / 9)) i = some (fval.num r)) :
    ∃ x : snode R, sg1.node[i]? = some x ∧
      x.dens = fval.num ((D - 1) * (r - m) / (M - m) + 1) ∧
      x.path_val = fval.num ((D - 1) * (r - m) / (M - m) + 1 - 1) := by
  unfold subgraph_pdf_evaluate at h
  simp only at h
  cases hl : for_uptoM (pdf_raw_step expf) sg.node_n
      ({ sg with
          k := fdiv (fmul (.num 2) sg.df) (.num 9)
          dens_min := .num FLT_MAX
          dens_max := .num FLT_MIN }, List.replicate sg.node_n (fval.num (0 : R))) with
  | none => simp [hl] at h
  | some st =>
    rw [hl] at h
    simp only [Option.some_bind] at h
    obtain ⟨⟨a, b, hsg⟩, hlen, hval⟩ := pdf_raw_loop_eq expf _ _ _ st hl
    obtain ⟨sg2, value⟩ := st
    simp only at hsg hlen hval h
    subst hsg
    simp only at h
    obtain ⟨v, hv1, hv2⟩ := hval i hi (by simp [hi])
    have hk : fdiv (fmul (fval.num 2) sg.df) (fval.num (9 : R)) = fval.num (2 * df / 9) := by
      have h9 : (9 : R) ≠ 0 := by norm_num
      rw [hdf, fmul_num, fdiv_num _ _ h9]
    rw [raw_density_frame, hk, hraw] at hv1
    have hv : v = fval.num r := (Option.some.inj hv1).symm
    subst hv
    have hbranch : feq a b = false ∨ feq a b = true := by cases feq a b <;> simp
    rcases hbranch with hb | hb
    · rw [if_neg (by simp [hb])] at h
      simp only [Option.some.injEq] at h
      subst h
      simp only at hmin hmax
      subst hmin hmax
      have hil : i < sg.node.length := by omega
      dsimp only
      rw [getElem?_for_upto_upd2_zero, if_pos hi, List.getElem?_eq_getElem hil]
      have hgd : value.getD i fval.nan = fval.num r := by
        rw [List.getD_eq_getElem?_getD, hv2]; rfl
      have hMm : M - m ≠ 0 := fun e => hne (sub_eq_zero.mp e).symm
      refine ⟨_, rfl, ?_, ?_⟩
      · simp only [Function.comp, hgd, fsub_num, fmul_num, fdiv_num _ _ hMm, fadd_num]
      · simp only [Function.comp, hgd, fsub_num, fmul_num, fdiv_num _ _ hMm, fadd_num]
    · rw [if_pos hb] at h
      simp only [Option.some.injEq] at h
      subst h
      simp only at hmin hmax
      subst hmin hmax
      simp [feq, hne] at hb


theorem FLT_MAX_pos {R : Type} [LinearOrderedField R] : (0 : R) < FLT_MAX := by
  unfold FLT_MAX; norm_num

theorem FLT_MIN_pos {R : Type} [LinearOrderedField R] : (0 : R) < FLT_MIN := by
  unfold FLT_MIN; norm_num

/-- Claim C3 (the code departs from it).  On the sub-graph that
`subgraph_create 1` returns, whose only node has an empty adjacency,
`subgraph_pdf_evaluate` leaves `dens = 1` and `path_val = 0` whatever
`DENS_MAX` is: the raw density 0 never exceeds the initial `dens_max = FLT_MIN`,
so `dens_min = 0` differs from `dens_max` and the rescaling branch runs. -/
theorem pdf_evaluate_isolated {R : Type} [LinearOrderedField R] (D : R) (expf : R → R) :
    ((subgraph_create true true true 1).bind (subgraph_pdf_evaluate D expf)).map
        (fun sg => sg.node.map fun x => (x.adj, x.dens, x.path_val)) =
      some [([], fval.num 1, fval.num 0)] := by
  have h1 : (0 : R) < FLT_MAX := FLT_MAX_pos
  have h2 : ¬ ((FLT_MIN : R) < 0) := not_lt.mpr (le_of_lt FLT_MIN_pos)
  have h3 : ¬ ((0 : R) = FLT_MIN) := ne_of_lt FLT_MIN_pos
  have h4 : (FLT_MIN : R) ≠ 0 := ne_of_gt FLT_MIN_pos
  simp [subgraph_create, subgraph_pdf_evaluate, for_upto, for_uptoM, pdf_raw_step, upd,
      pdf_adj_loop, snode_clear, snode_0xFF, flt, feq, fdiv, h1, h2, h3, h4]


/-- Claim C4 (the code departs from it).  On the sub-graph that
`subgraph_create 1` returns, the only raw density is 0, and
`subgraph_pdf_evaluate` ends with `dens_min = 0` but `dens_max = FLT_MIN`,
which is not 0, the largest raw density. -/
theorem pdf_evaluate_extrema_isolated {R : Type} [LinearOrderedField R] (D : R) (expf : R → R) :
    (subgraph_create true true true 1).bind
        (fun sg : subgraph R => raw_density expf sg (fdiv (fmul (.num 2) sg.df) (.num 9)) 0) =
      some (fval.num 0) ∧
    ((subgraph_create true true true 1).bind (subgraph_pdf_evaluate D expf)).map
        (fun sg => (sg.dens_min, sg.dens_max)) =
      some (fval.num 0, fval.num FLT_MIN) ∧
    (fval.num FLT_MIN : fval R) ≠ fval.num 0 := by
  have h1 : (0 : R) < FLT_MAX := FLT_MAX_pos
  have h2 : ¬ ((FLT_MIN : R) < 0) := not_lt.mpr (le_of_lt FLT_MIN_pos)
  have h3 : ¬ ((0 : R) = FLT_MIN) := ne_of_lt FLT_MIN_pos
  have h4 : (FLT_MIN : R) ≠ 0 := ne_of_gt FLT_MIN_pos
  refine ⟨?_, ?_, ?_⟩
  · simp [subgraph_create, raw_density, for_upto, upd, snode_clear, snode_0xFF, adj_distances,
      fdiv]
  · simp [subgraph_create, subgraph_pdf_evaluate, for_upto, for_uptoM, pdf_raw_step, upd,
      pdf_adj_loop, snode_clear, snode_0xFF, flt, feq, fdiv, h1, h2, h3, h4]
  · simp [h4]

theorem exp_neg_hundred_lt : Real.exp (-100) / 2 < (FLT_MIN : ℝ) := by
  have h1 : (2.7 : ℝ) < Real.exp 1 := by
    have := Real.exp_one_gt_d9
    linarith
  have h2 : Real.exp 100 = Real.exp 1 ^ 100 := by
    rw [← Real.exp_nat_mul]; norm_num
  have h3 : (2.7 : ℝ) ^ 100 < Real.exp 1 ^ 100 := by
    apply pow_lt_pow_left₀ h1 (by norm_num) (by norm_num)
  have h4 : (0:ℝ) < Real.exp 100 := Real.exp_pos _
  rw [Real.exp_neg]
  unfold FLT_MIN
  rw [div_lt_div_iff₀ (by norm_num) (by norm_num)]
  rw [inv_mul_eq_div, div_lt_iff₀ h4]
  have h5 : (85070591730234615865843651857942052864 : ℝ) < (2.7 : ℝ) ^ 100 := by norm_num
  nlinarith


/-- Claim C6 (the code departs from it).  On the sample `far_pair`, with
`DENS_MAX = 1000` and `k = 1`, the raw densities are `exp (-100) / 2` for node 0
and 0 for node 1, so they are not all equal and node 0 has the largest; yet
`dens_max` stays `FLT_MIN` and node 0 ends with a density below `DENS_MAX`. -/
theorem pdf_evaluate_far_pair :
    (raw_density Real.exp (far_pair : subgraph ℝ) (.num 1) 0,
        raw_density Real.exp (far_pair : subgraph ℝ) (.num 1) 1) =
      (some (fval.num (Real.exp (-100) / 2)), some (fval.num 0)) ∧
    (0 : ℝ) < Real.exp (-100) / 2 ∧
    (subgraph_pdf_evaluate 1000 Real.exp (far_pair : subgraph ℝ)).map
        (fun sg => (sg.k, sg.dens_min, sg.dens_max, sg.node.map fun x => x.dens)) =
      some (fval.num 1, fval.num 0, fval.num FLT_MIN,
        [fval.num (999 * (Real.exp (-100) / 2 - 0) / (FLT_MIN - 0) + 1), fval.num 1]) ∧
    (999 * (Real.exp (-100) / 2 - 0) / (FLT_MIN - 0) + 1 : ℝ) < 1000 := by
  have hx := exp_neg_hundred_lt
  have hpos : (0 : ℝ) < Real.exp (-100) / 2 := by positivity
  have h1 : (0 : ℝ) < FLT_MAX := FLT_MAX_pos
  have h4 : (0 : ℝ) < FLT_MIN := FLT_MIN_pos
  have h5 : (FLT_MIN : ℝ) < FLT_MAX := by unfold FLT_MIN FLT_MAX; norm_num
  have hk : (2 * (9 / 2) / 9 : ℝ) = 1 := by norm_num
  have hlt1 : Real.exp (-100) / 2 < (FLT_MAX : ℝ) := lt_trans hx h5
  have hlt2 : ¬ ((FLT_MIN : ℝ) < Real.exp (-100) / 2) := not_lt.mpr (le_of_lt hx)
  have hlt4 : ¬ ((FLT_MIN : ℝ) < 0) := not_lt.mpr (le_of_lt h4)
  have hne : ¬ ((0 : ℝ) = FLT_MIN) := ne_of_lt h4
  have hne2 : ¬ ((FLT_MIN : ℝ) = 0) := ne_of_gt h4
  refine ⟨?_, hpos, ?_, ?_⟩
  · simp [raw_density, far_pair, adj_distances, at_int, subgraph_get_distance, PDISTANCE,
      snode_clear, snode_0xFF, fdiv]
    norm_num
  · simp [subgraph_pdf_evaluate, far_pair, for_upto, for_uptoM, pdf_raw_step, upd,
      pdf_adj_loop, at_int, subgraph_get_distance, PDISTANCE, snode_clear, snode_0xFF,
      flt, feq, fdiv, hk, hlt1, hlt2, hlt4, hne, hne2, Real.exp_pos]
    norm_num
  · rw [sub_zero, sub_zero]
    have : 999 * (Real.exp (-100) / 2) / FLT_MIN < 999 := by
      rw [div_lt_iff₀ h4]; nlinarith
    linarith

theorem FLT_MIN_lt_exp_neg_one : (FLT_MIN : ℝ) < Real.exp (-1) / 2 := by
  have h1 : Real.exp 1 < 3 := by
    have := Real.exp_one_lt_d9
    linarith
  have h4 : (0:ℝ) < Real.exp 1 := Real.exp_pos _
  rw [Real.exp_neg]
  unfold FLT_MIN
  rw [div_lt_div_iff₀ (by norm_num) (by norm_num), inv_mul_eq_div, lt_div_iff₀ h4]
  nlinarith

theorem exp_neg_one_lt_FLT_MAX : Real.exp (-1) / 2 < (FLT_MAX : ℝ) := by
  have h1 : Real.exp (-1) ≤ 1 := by
    rw [Real.exp_le_one_iff]; norm_num
  unfold FLT_MAX
  linarith

/-- The end-to-end example of the specification: the raw densities are
`exp (-1) / 2`, `exp (-1) / 2` and 0; node 2 ends with density 1 and path value
0, the nodes 0 and 1 with `DENS_MAX` and `DENS_MAX - 1`. -/
theorem pdf_evaluate_line_three (D : ℝ) :
    (subgraph_pdf_evaluate D Real.exp (line_three : subgraph ℝ)).map
        (fun sg => (sg.dens_min, sg.dens_max, sg.node.map fun x => (x.dens, x.path_val))) =
      some (fval.num 0, fval.num (Real.exp (-1) / 2),
        [(fval.num D, fval.num (D - 1)), (fval.num D, fval.num (D - 1)),
          (fval.num 1, fval.num 0)]) := by
  have hx := FLT_MIN_lt_exp_neg_one
  have hlt1 := exp_neg_one_lt_FLT_MAX
  have h4 : (0 : ℝ) < FLT_MIN := FLT_MIN_pos
  have hk : (2 * (9 / 2) / 9 : ℝ) = 1 := by norm_num
  have hlt4 : ¬ ((FLT_MIN : ℝ) < 0) := not_lt.mpr (le_of_lt h4)
  have hne : ¬ ((0 : ℝ) = Real.exp (-1) / 2) := by
    have : (0:ℝ) < Real.exp (-1) / 2 := by positivity
    exact ne_of_lt this
  have hne2 : ¬ (Real.exp (-1) = 0) := ne_of_gt (Real.exp_pos _)
  have hnlt : ¬ (Real.exp (-1) / 2 < 0) := by
    have : (0:ℝ) < Real.exp (-1) / 2 := by positivity
    exact not_lt.mpr (le_of_lt this)
  simp [subgraph_pdf_evaluate, line_three, for_upto, for_uptoM, pdf_raw_step, upd,
      pdf_adj_loop, at_int, subgraph_get_distance, feat_cells, mem_read, d_abs,
      snode_clear, snode_0xFF, flt, feq, fdiv, hk, hx, hlt1, hlt4, hne, hne2, hnlt, Real.exp_pos]

/-- Witness of claim C5: node 2 of the end-to-end example of the specification,
with `DENS_MAX = 1000`, `m = 0`, `M = exp (-1) / 2` and the raw density 0. -/
theorem subgraph_pdf_evaluate_rescale_witness :
    ∃ (sg1 : subgraph ℝ) (x : snode ℝ),
      subgraph_pdf_evaluate 1000 Real.exp line_three = some sg1 ∧
      sg1.node[2]? = some x ∧
      x.dens = fval.num ((1000 - 1) * (0 - 0) / (Real.exp (-1) / 2 - 0) + 1) ∧
      x.path_val = fval.num ((1000 - 1) * (0 - 0) / (Real.exp (-1) / 2 - 0) + 1 - 1) := by
  have hev := pdf_evaluate_line_three 1000
  cases h : subgraph_pdf_evaluate 1000 Real.exp (line_three : subgraph ℝ) with
  | none => simp [h] at hev
  | some sg1 =>
    rw [h] at hev
    simp only [Option.map_some', Option.some.injEq, Prod.mk.injEq] at hev
    have hne : (0 : ℝ) ≠ Real.exp (-1) / 2 := by
      have : (0:ℝ) < Real.exp (-1) / 2 := by positivity
      exact ne_of_lt this
    have hraw : raw_density Real.exp (line_three : subgraph ℝ) (fval.num (2 * (9 / 2) / 9)) 2 =
        some (fval.num 0) := by
      simp [raw_density, line_three, adj_distances, fdiv]
    obtain ⟨x, hx⟩ := subgraph_pdf_evaluate_rescale 1000 Real.exp line_three sg1 rfl h
      (9 / 2) 0 (Real.exp (-1) / 2) rfl hev.1 hev.2.1 hne 2 (by decide) 0 hraw
    exact ⟨sg1, x, rfl, hx⟩

/-! ## Resizing -/

/-- A loop that writes the cell `base + j` in round `j`, with a value that may
be undefined: when it ends, the cells below `base` and from `base + c` on are
untouched and the cell `base + j` holds the value of round `j`. -/
theorem for_uptoM_set {α : Type} (g : Nat → Option α) (base c : Nat) (dt0 dt : List α)
    (h : for_uptoM (fun j d2 => (g j).bind fun d => some (d2.set (base + j) d)) c dt0 = some dt) :
    dt.length = dt0.length ∧
      (∀ p, p < base → dt[p]? = dt0[p]?) ∧
      (∀ p, base + c ≤ p → dt[p]? = dt0[p]?) ∧
      (∀ j, j < c → (g j).isSome ∧ (base + j < dt0.length → dt[base + j]? = g j)) := by
  induction c generalizing dt with
  | zero =>
    simp only [for_uptoM, Option.some.injEq] at h
    subst h
    exact ⟨rfl, fun _ _ => rfl, fun _ _ => rfl, fun j hj => absurd hj (Nat.not_lt_zero j)⟩
  | succ c ih =>
    simp only [for_uptoM] at h
    cases h1 : for_uptoM (fun j d2 => (g j).bind fun d => some (d2.set (base + j) d)) c dt0 with
    | none => simp [h1] at h
    | some d1 =>
      rw [h1] at h
      simp only [Option.some_bind] at h
      obtain ⟨hl, hlo, hhi, hmid⟩ := ih d1 h1
      cases h2 : g c with
      | none => simp [h2] at h
      | some d =>
        simp only [h2, Option.some_bind, Option.some.injEq] at h
        subst h
        refine ⟨by simp [hl], ?_, ?_, ?_⟩
        · intro p hp
          have hne : base + c ≠ p := by omega
          rw [List.getElem?_set_ne hne]; exact hlo p hp
        · intro p hp
          have hne : base + c ≠ p := by omega
          rw [List.getElem?_set_ne hne]; exact hhi p (by omega)
        · intro j hj
          by_cases hjc : j = c
          · subst hjc
            refine ⟨by simp [h2], fun hlt => ?_⟩
            have : base + j < d1.length := by omega
            simp [this, h2]
          · have hj2 : j < c := by omega
            obtain ⟨hs, hv⟩ := hmid j hj2
            refine ⟨hs, fun hlt => ?_⟩
            have hne : base + c ≠ base + j := by omega
            rw [List.getElem?_set_ne hne]; exact hv hlt

theorem for_uptoM_set_isSome {α : Type} (g : Nat → Option α) (base c : Nat) (dt0 : List α)
    (hg : ∀ j, j < c → (g j).isSome) :
    (for_uptoM (fun j d2 => (g j).bind fun d => some (d2.set (base + j) d)) c dt0).isSome := by
  induction c with
  | zero => simp [for_uptoM]
  | succ c ih =>
    simp only [for_uptoM]
    obtain ⟨d1, h1⟩ := Option.isSome_iff_exists.mp (ih fun j hj => hg j (by omega))
    obtain ⟨d, h2⟩ := Option.isSome_iff_exists.mp (hg c (by omega))
    simp [h1, h2]


/-- The value that `subgraph_resize` reads from the old table for the entry
`(i, j)` of the new one. -/
theorem resize_pdist_inner {R : Type} (sg : subgraph R) (n i : Nat) :
    (fun (j : Nat) (dt2 : List (fval R)) =>
      (sg.node[i]?).bind fun ni =>
      (sg.node[j]?).bind fun nj =>
      (PDISTANCE sg ni.position nj.position).bind fun d =>
      some (dt2.set (i * n + j) d)) =
    fun j d2 =>
      ((sg.node[i]?).bind fun ni => (sg.node[j]?).bind fun nj =>
        PDISTANCE sg ni.position nj.position).bind fun d => some (d2.set (i * n + j) d) := by
  funext j dt2
  cases sg.node[i]? <;> cases sg.node[j]? <;> simp

theorem resize_pdist_rows {R : Type} (sg : subgraph R) (n r : Nat) (dt0 dt : List (fval R))
    (h : for_uptoM
      (fun i dt1 =>
        for_uptoM
          (fun j dt2 =>
            (sg.node[i]?).bind fun ni =>
            (sg.node[j]?).bind fun nj =>
            (PDISTANCE sg ni.position nj.position).bind fun d =>
            some (dt2.set (i * n + j) d))
          n dt1)
      r dt0 = some dt) :
    dt.length = dt0.length ∧
      (∀ p, r * n ≤ p → dt[p]? = dt0[p]?) ∧
      ∀ i, i < r → ∀ j, j < n →
        ((sg.node[i]?).bind fun ni => (sg.node[j]?).bind fun nj =>
          PDISTANCE sg ni.position nj.position).isSome ∧
        (i * n + j < dt0.length → dt[i * n + j]? =
          (sg.node[i]?).bind fun ni => (sg.node[j]?).bind fun nj =>
            PDISTANCE sg ni.position nj.position) := by
  induction r generalizing dt with
  | zero =>
    simp only [for_uptoM, Option.some.injEq] at h
    subst h
    exact ⟨rfl, fun _ _ => rfl, fun i hi => absurd hi (Nat.not_lt_zero i)⟩
  | succ r ih =>
    simp only [for_uptoM] at h
    cases h1 : for_uptoM
      (fun i dt1 =>
        for_uptoM
          (fun j dt2 =>
            (sg.node[i]?).bind fun ni =>
            (sg.node[j]?).bind fun nj =>
            (PDISTANCE sg ni.position nj.position).bind fun d =>
            some (dt2.set (i * n + j) d))
          n dt1)
      r dt0 with
    | none => simp [h1] at h
    | some d1 =>
      rw [h1] at h
      simp only [Option.some_bind] at h
      obtain ⟨hl, hhi, hrows⟩ := ih d1 h1
      rw [resize_pdist_inner] at h
      obtain ⟨hl2, hlo2, hhi2, hmid2⟩ := for_uptoM_set _ (r * n) n d1 dt h
      have hsucc : (r + 1) * n = r * n + n := by ring
      refine ⟨by omega, ?_, ?_⟩
      · intro p hp
        rw [hhi2 p (by omega), hhi p (by omega)]
      · intro i hi j hj
        by_cases hir : i = r
        · subst hir
          obtain ⟨hs, hv⟩ := hmid2 j hj
          exact ⟨hs, fun hlt => hv (by omega)⟩
        · have hi2 : i < r := by omega
          obtain ⟨hs, hv⟩ := hrows i hi2 j hj
          refine ⟨hs, fun hlt => ?_⟩
          have hb : i * n + j < r * n := by
            have : (i + 1) * n ≤ r * n := Nat.mul_le_mul_right n hi2
            have e : (i + 1) * n = i * n + n := by ring
            omega
          rw [hlo2 _ hb]
          exact hv hlt

theorem resize_pdist_rows_isSome {R : Type} (sg : subgraph R) (n r : Nat) (dt0 : List (fval R))
    (hg : ∀ i, i < r → ∀ j, j < n →
      ((sg.node[i]?).bind fun ni => (sg.node[j]?).bind fun nj =>
        PDISTANCE sg ni.position nj.position).isSome) :
    (for_uptoM
      (fun i dt1 =>
        for_uptoM
          (fun j dt2 =>
            (sg.node[i]?).bind fun ni =>
            (sg.node[j]?).bind fun nj =>
            (PDISTANCE sg ni.position nj.position).bind fun d =>
            some (dt2.set (i * n + j) d))
          n dt1)
      r dt0).isSome := by
  induction r with
  | zero => simp [for_uptoM]
  | succ r ih =>
    simp only [for_uptoM]
    obtain ⟨d1, h1⟩ := Option.isSome_iff_exists.mp (ih fun i hi => hg i (by omega))
    rw [h1, Option.some_bind, resize_pdist_inner]
    exact for_uptoM_set_isSome _ (r * n) n d1 (hg r (by omega))


@[simp] theorem length_realloc_cells {α : Type} (a : List α) (n : Nat) (fresh : Nat → α) :
    (realloc_cells a n fresh).length = n := by
  simp [realloc_cells]; omega

theorem getElem?_realloc_cells {α : Type} (a : List α) (n : Nat) (fresh : Nat → α) (p : Nat)
    (hp : p < n) (hpa : p < a.length) : (realloc_cells a n fresh)[p]? = a[p]? := by
  unfold realloc_cells
  rw [List.getElem?_append_left (by simp; omega), List.getElem?_take_of_lt hp]

/-- For an array kept as a list, `realloc` to `n` cells gives the `n` cells, the
`NULL` for no cells being the empty list. -/
theorem realloc_getD {α : Type} (a : List α) (n : Nat) (fresh : Nat → α) :
    (realloc a (n : Int) fresh).getD [] = realloc_cells a n fresh := by
  unfold realloc
  by_cases hn : (n : Int) ≤ 0
  · have h0 : n = 0 := by omega
    subst h0
    simp [realloc_cells]
  · rw [if_neg hn]
    simp

theorem realloc_pos {α : Type} (a : List α) (n : Int) (fresh : Nat → α) (hn : 0 < n) :
    realloc a n fresh = some (realloc_cells a n.toNat fresh) := by
  unfold realloc
  rw [if_neg (by omega)]

theorem realloc_nonpos {α : Type} (a : List α) (n : Int) (fresh : Nat → α) (hn : n ≤ 0) :
    realloc a n fresh = none := by
  unfold realloc
  rw [if_pos hn]

/-- The arrays after the `realloc` and `memset` calls of `subgraph_resize`: the
node array, whether there is a feature block (there was one and the new cell
count is positive), and the cells of the block that are kept. -/
theorem resize_arrays_eq {R : Type} [LinearOrderedField R] (fresh : fresh_mem R)
    (sg : subgraph R) (n : Nat)
    (r : List (snode R) × List Int × Option (List (fval R)))
    (hnode : sg.node.length = sg.node_n) (h : resize_arrays fresh sg n = some r) :
    r.1 = sg.node.take n ++ List.replicate (n - sg.node_n) snode_0xFF ∧
      r.2.2.isSome = (sg.feat_data.isSome && decide (0 < (n : Int) * sg.feat_n)) ∧
      ∀ block, sg.feat_data = some block → 0 < (n : Int) * sg.feat_n → ∃ b1, r.2.2 = some b1 ∧
        ∀ p : Nat, p < block.length → (p : Int) < ((min sg.node_n n : Nat) : Int) * sg.feat_n →
          b1[p]? = block[p]? := by
  unfold resize_arrays at h
  rw [realloc_getD, realloc_getD] at h
  by_cases hg : n > sg.node_n
  · simp only [hg, if_true] at h
    have hw1 : sg.node_n + (List.replicate (n - sg.node_n) (snode_0xFF : snode R)).length ≤
        (realloc_cells sg.node n fresh.node).length := by simp; omega
    have hw2 : sg.node_n + (List.replicate (n - sg.node_n) (-1 : Int)).length ≤
        (realloc_cells sg.ordered_list_of_nodes n fresh.ident).length := by simp; omega
    rw [mem_write_nat _ _ _ hw1, mem_write_nat _ _ _ hw2] at h
    simp only [Option.some_bind] at h
    have hnodes : List.take sg.node_n (realloc_cells sg.node n fresh.node) ++
          List.replicate (n - sg.node_n) snode_0xFF ++
          List.drop (sg.node_n + (List.replicate (n - sg.node_n) (snode_0xFF : snode R)).length)
            (realloc_cells sg.node n fresh.node) =
        sg.node.take n ++ List.replicate (n - sg.node_n) snode_0xFF := by
      have h1 : List.take n sg.node = sg.node := List.take_of_length_le (by omega)
      have h2 : List.drop (sg.node_n + (List.replicate (n - sg.node_n)
          (snode_0xFF : snode R)).length) (realloc_cells sg.node n fresh.node) = [] := by
        apply List.drop_eq_nil_of_le; simp; omega
      rw [h2, h1, List.append_nil]
      congr 1
      unfold realloc_cells
      rw [h1, List.take_append_of_le_length (by omega)]
      exact List.take_of_length_le (by omega)
    cases hfd : sg.feat_data with
    | none =>
      simp only [hfd, Option.none_bind, Option.some.injEq] at h
      subst h
      exact ⟨hnodes, by simp, fun block hb => by simp at hb⟩
    | some block =>
      simp only [hfd, Option.some_bind] at h
      by_cases hz : 0 < (n : Int) * sg.feat_n
      · rw [realloc_pos _ _ _ hz] at h
        simp only at h
        cases hmw : mem_write (realloc_cells block ((n : Int) * sg.feat_n).toNat fresh.cell)
            ((sg.node_n : Int) * sg.feat_n) (List.replicate (n - sg.node_n) fval.nan) with
        | none => simp [hmw] at h
        | some m1 =>
          simp only [hmw, Option.some_bind, Option.some.injEq] at h
          subst h
          refine ⟨hnodes, by simp [hz], fun b hb _ => ?_⟩
          simp only [Option.some.injEq] at hb
          subst hb
          refine ⟨m1, rfl, fun p hpl hp => ?_⟩
          unfold mem_write at hmw
          split at hmw
          · rename_i hc
            simp only [Option.some.injEq] at hmw
            subst hmw
            have hmin : min sg.node_n n = sg.node_n := by omega
            rw [hmin] at hp
            have hp2 : p < ((sg.node_n : Int) * sg.feat_n).toNat := by omega
            have hfn : 0 < sg.feat_n := by
              by_contra hcon
              have : (sg.node_n : Int) * sg.feat_n ≤ 0 :=
                Int.mul_nonpos_of_nonneg_of_nonpos (by omega) (by omega)
              omega
            have hle : (sg.node_n : Int) * sg.feat_n ≤ (n : Int) * sg.feat_n :=
              Int.mul_le_mul_of_nonneg_right (by omega) (by omega)
            have hp3 : p < ((n : Int) * sg.feat_n).toNat := by omega
            rw [List.append_assoc, List.getElem?_append_left (by simp; omega),
              List.getElem?_take_of_lt hp2]
            exact getElem?_realloc_cells _ _ _ _ hp3 hpl
          · simp at hmw
      · rw [realloc_nonpos _ _ _ (by omega)] at h
        simp only [Option.some.injEq] at h
        subst h
        exact ⟨hnodes, by simp [hz], fun b _ hpos => absurd hpos hz⟩
  · simp only [hg, if_false, Option.some.injEq] at h
    subst h
    refine ⟨?_, ?_, fun block hb hz => ?_⟩
    · have h0 : n - sg.node_n = 0 := by omega
      have h1 : n - sg.node.length = 0 := by omega
      simp [realloc_cells, h0, h1]
    · cases hfd : sg.feat_data with
      | none => simp
      | some block =>
        by_cases hz : 0 < (n : Int) * sg.feat_n
        · simp [realloc_pos _ _ _ hz, hz]
        · simp [realloc_nonpos _ _ _ (by omega : (n : Int) * sg.feat_n ≤ 0), hz]
    · refine ⟨realloc_cells block ((n : Int) * sg.feat_n).toNat fresh.cell,
        by simp [hb, realloc_pos _ _ _ hz], fun p hpl hp => ?_⟩
      have hmin : min sg.node_n n = n := by omega
      rw [hmin] at hp
      exact getElem?_realloc_cells _ _ _ _ (by omega) hpl


/-- The node in slot `j` after the two loops of `subgraph_resize`. -/
theorem getElem?_resize_nodes {R : Type} (sg : subgraph R) (n : Nat) (a : List (snode R))
    (hf : Bool) (j : Nat) :
    (resize_nodes sg n a hf)[j]? =
      ((if sg.node_n ≤ j ∧ j < sg.node_n + (n - sg.node_n) then
          a[j]?.map fun x => { snode_clear x with position := (j : Int) }
        else a[j]?).map fun x =>
        if hf = true ∧ j < n then { x with feat := featptr.view ((j : Int) * sg.feat_n) }
        else x) := by
  have hclear := getElem?_for_upto_upd2 sg.node_n (fun _ => (snode_clear : snode R → snode R))
    (fun t x => { x with position := ((sg.node_n + t : Nat) : Int) }) (n - sg.node_n) a j
  have hbody : ∀ (t : Nat) (nd : List (snode R)),
      (fun i nd => upd nd i (fun x : snode R =>
        { x with feat := featptr.view ((i : Int) * sg.feat_n) })) t nd =
      upd nd (0 + t) ((fun (i : Nat) (x : snode R) =>
        { x with feat := featptr.view ((i : Int) * sg.feat_n) }) t) := by
    intro t nd; simp only [Nat.zero_add]
  unfold resize_nodes
  cases hf with
  | false =>
    simp only [Bool.false_eq_true, if_false, false_and]
    rw [hclear]
    by_cases hr : sg.node_n ≤ j ∧ j < sg.node_n + (n - sg.node_n)
    · have e : sg.node_n + (j - sg.node_n) = j := by omega
      simp only [if_pos hr, Option.map_map, Function.comp, e]
      cases a[j]? <;> rfl
    · simp only [if_neg hr]
      cases a[j]? <;> rfl
  | true =>
    simp only [if_true, true_and]
    rw [getElem?_for_upto_upd _ 0 _ hbody, hclear]
    by_cases hjn : j < n
    · have h0 : 0 ≤ j ∧ j < 0 + n := by omega
      simp only [if_pos h0, if_pos hjn, Nat.sub_zero]
      by_cases hr : sg.node_n ≤ j ∧ j < sg.node_n + (n - sg.node_n)
      · have e : sg.node_n + (j - sg.node_n) = j := by omega
        simp only [if_pos hr, Option.map_map, Function.comp, e]
        rfl
      · simp only [if_neg hr]
    · have h0 : ¬ (0 ≤ j ∧ j < 0 + n) := by omega
      simp only [if_neg h0, if_neg hjn]
      by_cases hr : sg.node_n ≤ j ∧ j < sg.node_n + (n - sg.node_n)
      · omega
      · simp only [if_neg hr]
        cases a[j]? <;> rfl

/-- Members of the result of `subgraph_resize`, from its three parts. -/
theorem subgraph_resize_eq {R : Type} [LinearOrderedField R] (fresh : fresh_mem R)
    (sg sg1 : subgraph R) (n : Nat) (h : subgraph_resize fresh sg n = some sg1) :
    ∃ a, resize_arrays fresh sg n = some a ∧
      sg1.node_n = n ∧ sg1.node = resize_nodes sg n a.1 a.2.2.isSome ∧
      sg1.feat_data = a.2.2 ∧ sg1.feat_n = sg.feat_n ∧ sg1.arc_weight = sg.arc_weight ∧
      (sg.pdist = none → sg1.pdist = none) ∧
      ∀ m, sg.pdist = some m → ∃ dt,
        resize_pdist
          { sg with
            node_n := n
            node := resize_nodes sg n a.1 a.2.2.isSome
            ordered_list_of_nodes := a.2.1
            feat_data := a.2.2 } n = some dt ∧
        sg1.pdist = some dt ∧ sg1.pdist_train_stride = (n : Int) := by
  unfold subgraph_resize at h
  cases ha : resize_arrays fresh sg n with
  | none => simp [ha] at h
  | some a =>
    simp only [ha, Option.some_bind] at h
    refine ⟨a, rfl, ?_⟩
    cases hp : sg.pdist with
    | none =>
      rw [hp] at h
      simp only [Option.some.injEq] at h
      subst h
      simp
    | some m =>
      rw [hp] at h
      cases hd : resize_pdist
          { sg with
            node_n := n
            node := resize_nodes sg n a.1 a.2.2.isSome
            ordered_list_of_nodes := a.2.1
            feat_data := a.2.2
            pdist := some m } n with
      | none => simp [hd] at h
      | some dt =>
        simp only [hd, Option.some_bind, Option.some.injEq] at h
        subst h
        simp


theorem resize_arrays_isSome {R : Type} [LinearOrderedField R] (fresh : fresh_mem R)
    (sg : subgraph R) (n : Nat)
    (hf : sg.feat_data = none ∨ n ≤ sg.node_n ∨ 1 ≤ sg.feat_n) :
    ∃ a, resize_arrays fresh sg n = some a := by
  unfold resize_arrays
  rw [realloc_getD, realloc_getD]
  by_cases hg : n > sg.node_n
  · simp only [hg, if_true]
    have hw1 : sg.node_n + (List.replicate (n - sg.node_n) (snode_0xFF : snode R)).length ≤
        (realloc_cells sg.node n fresh.node).length := by simp; omega
    have hw2 : sg.node_n + (List.replicate (n - sg.node_n) (-1 : Int)).length ≤
        (realloc_cells sg.ordered_list_of_nodes n fresh.ident).length := by simp; omega
    rw [mem_write_nat _ _ _ hw1, mem_write_nat _ _ _ hw2]
    simp only [Option.some_bind]
    cases hfd : sg.feat_data with
    | none => exact ⟨_, rfl⟩
    | some block =>
      have h1 : 1 ≤ sg.feat_n := by
        rcases hf with h | h | h
        · simp [hfd] at h
        · omega
        · exact h
      have e2 : ((n - sg.node_n : Nat) : Int) * 1 ≤ ((n - sg.node_n : Nat) : Int) * sg.feat_n :=
        Int.mul_le_mul_of_nonneg_left h1 (by omega)
      have e3 : (n : Int) * sg.feat_n =
          (sg.node_n : Int) * sg.feat_n + ((n - sg.node_n : Nat) : Int) * sg.feat_n := by
        have hn : (sg.node_n : Int) + ((n - sg.node_n : Nat) : Int) = (n : Int) := by omega
        rw [← add_mul, hn]
      have e1 : (0 : Int) ≤ (sg.node_n : Int) * sg.feat_n :=
        Int.mul_nonneg (by omega) (by omega)
      have hz : 0 < (n : Int) * sg.feat_n := by omega
      simp only [Option.some_bind]
      rw [realloc_pos _ _ _ hz]
      have hc : 0 ≤ (sg.node_n : Int) * sg.feat_n ∧
          (sg.node_n : Int) * sg.feat_n +
              ((List.replicate (n - sg.node_n) (fval.nan : fval R)).length : Int) ≤
            ((realloc_cells block ((n : Int) * sg.feat_n).toNat fresh.cell).length : Int) := by
        simp only [List.length_replicate, length_realloc_cells]
        refine ⟨e1, ?_⟩
        omega
      simp only
      unfold mem_write
      rw [if_pos hc]
      exact ⟨_, rfl⟩
  · simp only [hg, if_false]
    exact ⟨_, rfl⟩

/-- A node that survives `subgraph_resize` keeps its position. -/
theorem resize_nodes_position {R : Type} [LinearOrderedField R] (fresh : fresh_mem R)
    (sg : subgraph R) (n : Nat) (a : List (snode R) × List Int × Option (List (fval R)))
    (hnode : sg.node.length = sg.node_n) (ha : resize_arrays fresh sg n = some a)
    (hf : Bool) (i : Nat) (x : snode R) (hx : sg.node[i]? = some x) (hi : i < n) :
    ∃ y, (resize_nodes sg n a.1 hf)[i]? = some y ∧ y.position = x.position := by
  obtain ⟨ha1, -, -⟩ := resize_arrays_eq fresh sg n a hnode ha
  have hi1 : i < sg.node.length := (List.getElem?_eq_some.mp hx).1
  have hr : ¬ (sg.node_n ≤ i ∧ i < sg.node_n + (n - sg.node_n)) := by omega
  have hai : a.1[i]? = some x := by
    rw [ha1, List.getElem?_append_left (by simp; omega), List.getElem?_take_of_lt hi, hx]
  refine ⟨_, by rw [getElem?_resize_nodes, if_neg hr, hai]; rfl, ?_⟩
  split <;> rfl

theorem at_int_nat {α : Type} (a : List α) (p : Nat) : at_int a (p : Int) = a[p]? := by
  simp [at_int]

/-- A shrinking `subgraph_resize` of a sub-graph with a distance table ends when
the lookups for the surviving nodes are inside the old table. -/
theorem subgraph_resize_shrink_defined {R : Type} [LinearOrderedField R] (fresh : fresh_mem R)
    (sg : subgraph R) (new_n : Nat) (m : List (fval R))
    (hnode : sg.node.length = sg.node_n) (hp : sg.pdist = some m)
    (hle : new_n ≤ sg.node_n)
    (hin : ∀ i j, i < new_n → j < new_n → ∃ x y d, sg.node[i]? = some x ∧
      sg.node[j]? = some y ∧ PDISTANCE sg x.position y.position = some d) :
    ∃ sg1, subgraph_resize fresh sg new_n = some sg1 := by
  obtain ⟨a, ha⟩ := resize_arrays_isSome fresh sg new_n (Or.inr (Or.inl hle))
  have hs := resize_pdist_rows_isSome
    ({ sg with
        node_n := new_n
        node := resize_nodes sg new_n a.1 a.2.2.isSome
        ordered_list_of_nodes := a.2.1
        feat_data := a.2.2 } : subgraph R) new_n new_n
    (List.replicate (new_n * new_n) (fval.num 0)) (by
      intro i hi j hj
      obtain ⟨x, y, d, hx, hy, hd⟩ := hin i j hi hj
      obtain ⟨x1, hx1, hpx⟩ := resize_nodes_position fresh sg new_n a hnode ha
        a.2.2.isSome i x hx hi
      obtain ⟨y1, hy1, hpy⟩ := resize_nodes_position fresh sg new_n a hnode ha
        a.2.2.isSome j y hy hj
      dsimp only
      rw [hx1, hy1]
      simp only [Option.some_bind, hpx, hpy]
      have : PDISTANCE ({ sg with
        node_n := new_n
        node := resize_nodes sg new_n a.1 a.2.2.isSome
        ordered_list_of_nodes := a.2.1
        feat_data := a.2.2 } : subgraph R) x.position y.position =
          PDISTANCE sg x.position y.position := rfl
      rw [this, hd]; rfl)
  obtain ⟨dt, hdt⟩ := Option.isSome_iff_exists.mp hs
  unfold subgraph_resize
  rw [ha]
  simp only [Option.some_bind, hp]
  unfold resize_pdist
  simp only [hp] at hdt
  rw [hdt]
  exact ⟨_, rfl⟩

/-- Claim C10, amended.  Whenever `subgraph_resize sg new_n` ends on a sub-graph
with a distance table (every lookup of the rebuild was inside the old table),
the new table has stride `new_n` and `new_n * new_n` entries, its entry
`i * new_n + j` is the old entry at `position (i) * old_stride + position (j)`,
and when every position is the slot index the distance between two surviving
nodes is the one before the resize.  It ends on every shrink whose lookups for
the surviving nodes are inside the old table. -/
theorem subgraph_resize_table {R : Type} [LinearOrderedField R] (fresh : fresh_mem R)
    (sg : subgraph R) (new_n : Nat) (m : List (fval R))
    (hnode : sg.node.length = sg.node_n) (hp : sg.pdist = some m) :
    (new_n ≤ sg.node_n →
      (∀ i j, i < new_n → j < new_n → ∃ x y d, sg.node[i]? = some x ∧ sg.node[j]? = some y ∧
        PDISTANCE sg x.position y.position = some d) →
      ∃ sg1, subgraph_resize fresh sg new_n = some sg1) ∧
    ∀ sg1, subgraph_resize fresh sg new_n = some sg1 →
      sg1.pdist_train_stride = (new_n : Int) ∧
      ∃ dt, sg1.pdist = some dt ∧ dt.length = new_n * new_n ∧
        (∀ i j, i < new_n → j < new_n → ∃ x y d,
          sg1.node[i]? = some x ∧ sg1.node[j]? = some y ∧
          PDISTANCE sg x.position y.position = some d ∧ dt[i * new_n + j]? = some d) ∧
        ((∀ i, i < sg.node_n → ∃ x, sg.node[i]? = some x ∧ x.position = (i : Int)) →
          ∀ i j, i < min sg.node_n new_n → j < min sg.node_n new_n → ∃ x y x1 y1,
            sg.node[i]? = some x ∧ sg.node[j]? = some y ∧
            sg1.node[i]? = some x1 ∧ sg1.node[j]? = some y1 ∧
            (subgraph_get_distance sg x y).isSome ∧
            subgraph_get_distance sg1 x1 y1 = subgraph_get_distance sg x y) := by
  have hidx : ∀ i j, i < new_n → j < new_n → i * new_n + j < new_n * new_n := by
    intro i j hi hj
    have : (i + 1) * new_n ≤ new_n * new_n := Nat.mul_le_mul_right new_n hi
    have e : (i + 1) * new_n = i * new_n + new_n := by ring
    omega
  refine ⟨fun hle hin => subgraph_resize_shrink_defined fresh sg new_n m hnode hp hle hin,
    fun sg1 h => ?_⟩
  · obtain ⟨a, ha, hn, hnd, -, -, -, -, hpd⟩ := subgraph_resize_eq fresh sg sg1 new_n h
    obtain ⟨dt, hdt, hdt1, hstr⟩ := hpd m hp
    unfold resize_pdist at hdt
    obtain ⟨hlen, -, hrows⟩ := resize_pdist_rows _ new_n new_n _ dt hdt
    simp only [List.length_replicate] at hlen hrows
    have hent : ∀ i j, i < new_n → j < new_n → ∃ x y d,
        sg1.node[i]? = some x ∧ sg1.node[j]? = some y ∧
        PDISTANCE sg x.position y.position = some d ∧ dt[i * new_n + j]? = some d := by
      intro i j hi hj
      obtain ⟨hs, hv⟩ := hrows i hi j hj
      have hv2 := hv (hidx i j hi hj)
      rw [← hnd] at hs hv2
      cases hx : sg1.node[i]? with
      | none => simp [hx] at hs
      | some x =>
        cases hy : sg1.node[j]? with
        | none => simp [hx, hy] at hs
        | some y =>
          simp only [hx, hy, Option.some_bind] at hs hv2
          obtain ⟨d, hd⟩ := Option.isSome_iff_exists.mp hs
          rw [hd] at hv2
          exact ⟨x, y, d, rfl, rfl, hd, hv2⟩
    refine ⟨hstr, dt, hdt1, hlen, hent, fun hpos i j hi hj => ?_⟩
    have hi1 : i < sg.node_n := by omega
    have hj1 : j < sg.node_n := by omega
    have hi2 : i < new_n := by omega
    have hj2 : j < new_n := by omega
    obtain ⟨x, hx, hxp⟩ := hpos i hi1
    obtain ⟨y, hy, hyp⟩ := hpos j hj1
    obtain ⟨x1, y1, d, hx1, hy1, hd, hdd⟩ := hent i j hi2 hj2
    obtain ⟨x2, hx2, hpx⟩ := resize_nodes_position fresh sg new_n a hnode ha
      a.2.2.isSome i x hx hi2
    obtain ⟨y2, hy2, hpy⟩ := resize_nodes_position fresh sg new_n a hnode ha
      a.2.2.isSome j y hy hj2
    rw [← hnd, hx1] at hx2
    rw [← hnd, hy1] at hy2
    have ex : x1 = x2 := Option.some.inj hx2
    have ey : y1 = y2 := Option.some.inj hy2
    subst ex ey
    rw [hpx, hpy] at hd
    have hpre : subgraph_get_distance sg x y = some d := by
      simp only [subgraph_get_distance, hp, hd]
    have hpost : subgraph_get_distance sg1 x1 y1 = some d := by
      simp only [subgraph_get_distance, PDISTANCE, hdt1, hstr, hpx, hpy, hxp, hyp]
      have e : (i : Int) * (new_n : Int) + (j : Int) = ((i * new_n + j : Nat) : Int) := by
        push_cast; ring
      rw [e, at_int_nat, hdd]
    exact ⟨x, y, x1, y1, hx, hy, hx1, hy1, by rw [hpre]; rfl, by rw [hpre, hpost]⟩


/-- Counterexample to claim C10 as stated: growing the sample `far_pair`, whose
table is 2 x 2, to three nodes has no result, because the rebuild looks up the
old table at `position (2) * 2 + position (0) = 4`, outside its four entries. -/
theorem subgraph_resize_table_grow :
    subgraph_resize junk_mem (far_pair : subgraph ℚ) 3 = none ∧
      PDISTANCE (far_pair : subgraph ℚ) 2 0 = none := by
  constructor
  · rfl
  · rfl

/-- Witness of claim C10 as amended: the sample `far_pair` shrunk to one node. -/
theorem subgraph_resize_table_witness :
    ∃ (sg1 : subgraph ℚ) (dt : List (fval ℚ)) (x y : snode ℚ) (d : fval ℚ),
      subgraph_resize junk_mem far_pair 1 = some sg1 ∧
      sg1.pdist_train_stride = ((1 : Nat) : Int) ∧ sg1.pdist = some dt ∧ dt.length = 1 * 1 ∧
      sg1.node[0]? = some x ∧ sg1.node[0]? = some y ∧
      PDISTANCE far_pair x.position y.position = some d ∧ dt[0 * 1 + 0]? = some d := by
  have hthm := subgraph_resize_table junk_mem (far_pair : subgraph ℚ) 1
    [.num 0, .num 100, .num 100, .num 0] rfl rfl
  obtain ⟨sg1, h⟩ := hthm.1 (by decide) (by
    intro i j hi hj
    obtain rfl : i = 0 := by omega
    obtain rfl : j = 0 := by omega
    exact ⟨_, _, _, rfl, rfl, rfl⟩)
  obtain ⟨hs, dt, hdt, hlen, hent, -⟩ := hthm.2 sg1 h
  obtain ⟨x, y, d, hx, hy, hd, hdd⟩ := hent 0 0 (by decide) (by decide)
  exact ⟨sg1, dt, x, y, d, h, hs, hdt, hlen, hx, hy, hd, hdd⟩

/-! ## Metric selection -/

/-- Claim C12.  With an explicit distance function `f`, `subgraph_set_metric`
returns without an error for every value `m` of the metric type, and the
sub-graph it returns is the one it got with `arc_weight` set to `f`: no other
member has changed. -/
theorem subgraph_set_metric_explicit {R : Type} (cat : metric_catalog R) (sg : subgraph R)
    (f : List (fval R) → List (fval R) → Int → fval R) (m : METRIC) :
    subgraph_set_metric cat sg (.fn f) m = .done { sg with arc_weight := .fn f } := rfl

/-- Claim C13.  Without an explicit function, `subgraph_set_metric` selects the
function of the catalog for each of the eight named metrics and `NULL` for
`NO_METRIC`; it stops with the fatal error exactly for the other values of the
metric type, and then the sub-graph, with its distance function, is as it
was. -/
theorem subgraph_set_metric_catalog {R : Type} (cat : metric_catalog R) (sg : subgraph R) :
    subgraph_set_metric cat sg .null .EUCLIDIAN =
        .done { sg with arc_weight := .fn cat.d_eucl } ∧
      subgraph_set_metric cat sg .null .LOG_EUCLIDIAN =
        .done { sg with arc_weight := .fn cat.d_eucl_log } ∧
      subgraph_set_metric cat sg .null .CHI_SQUARE =
        .done { sg with arc_weight := .fn cat.d_chi_square } ∧
      subgraph_set_metric cat sg .null .SQUARED_CHI_SQUARE =
        .done { sg with arc_weight := .fn cat.d_squared_chi_square } ∧
      subgraph_set_metric cat sg .null .MANHATTAN =
        .done { sg with arc_weight := .fn cat.d_manhattan } ∧
      subgraph_set_metric cat sg .null .CANBERRA =
        .done { sg with arc_weight := .fn cat.d_canberra } ∧
      subgraph_set_metric cat sg .null .SQUARED_CHORD =
        .done { sg with arc_weight := .fn cat.d_squared_chord } ∧
      subgraph_set_metric cat sg .null .BRAY_CURTIS =
        .done { sg with arc_weight := .fn cat.d_bray_curtis } ∧
      subgraph_set_metric cat sg .null .NO_METRIC = .done { sg with arc_weight := .null } ∧
      (∀ m : METRIC,
        (∃ msg s, subgraph_set_metric cat sg .null m = .fatal msg s) ↔ ∃ v, m = .other v) ∧
      ∀ v : Int, subgraph_set_metric cat sg .null (.other v) = .fatal "Undefinied metric" sg := by
  refine ⟨rfl, rfl, rfl, rfl, rfl, rfl, rfl, rfl, rfl, ?_, fun _ => rfl⟩
  intro m
  constructor
  · rintro ⟨msg, s, h⟩
    cases m <;> first | exact ⟨_, rfl⟩ | (simp [subgraph_set_metric] at h)
  · rintro ⟨v, rfl⟩
    exact ⟨_, _, rfl⟩

/-! ## Node copy and swap -/

/-- Claim C15.  `snode_swap (a, b)` leaves the record of `b` in the slot of `a`
and the record of `a` in the slot of `b`, with all members; a second swap
restores both slots, and the position moves with the record. -/
theorem snode_swap_exchanges {R : Type} (a b : snode R) :
    snode_swap a b = (b, a) ∧
      snode_swap (snode_swap a b).1 (snode_swap a b).2 = (a, b) ∧
      (snode_swap a b).1.position = b.position ∧
      (snode_swap a b).2.position = a.position ∧
      (snode_swap a b).1.feat = b.feat ∧ (snode_swap a b).2.feat = a.feat ∧
      (snode_swap a b).1.adj = b.adj ∧ (snode_swap a b).2.adj = a.adj :=
  ⟨rfl, rfl, rfl, rfl, rfl, rfl, rfl, rfl⟩

theorem length_feat_cells {R : Type} (sg : subgraph R) (p : featptr R) (n : Int)
    (v : List (fval R)) (h : feat_cells sg p n = some v) : (v.length : Int) = n := by
  unfold feat_cells at h
  cases p with
  | null => simp at h
  | wild => simp at h
  | view off =>
    cases hfd : sg.feat_data with
    | none => simp [hfd] at h
    | some m => simp only [hfd] at h; exact (length_mem_read _ _ _ _ h).1
  | own b => exact (length_mem_read _ _ _ _ h).1

/-- Claim C14.  For a source node whose feature pointer has `feat_n` cells
behind it, `snode_copy` returns; the feature vector of `dest` then has the cells
of the one of `src`, the adjacency of `dest` is the identifier sequence of the
one of `src`, the ten scalar members of `dest` are those of `src`, and `src` is
as it was. -/
theorem snode_copy_copies {R : Type} (sg : subgraph R) (dest src : snode R) (feat_n : Int)
    (v : List (fval R)) (h : feat_cells sg src.feat feat_n = some v) :
    ∃ d s : snode R, snode_copy sg dest src feat_n = some (d, s) ∧ s = src ∧
      feat_cells sg d.feat feat_n = some v ∧ d.adj = src.adj ∧
      d.path_val = src.path_val ∧ d.dens = src.dens ∧ d.radius = src.radius ∧
      d.label = src.label ∧ d.label_true = src.label_true ∧ d.root = src.root ∧
      d.pred = src.pred ∧ d.position = src.position ∧ d.status = src.status ∧
      d.nplatadj = src.nplatadj := by
  refine ⟨{ dest with
      feat := .own v
      path_val := src.path_val
      dens := src.dens
      label := src.label
      root := src.root
      pred := src.pred
      label_true := src.label_true
      position := src.position
      status := src.status
      radius := src.radius
      nplatadj := src.nplatadj
      adj := set_clone src.adj }, src, by simp [snode_copy, h], rfl, ?_, rfl, rfl, rfl, rfl,
    rfl, rfl, rfl, rfl, rfl, rfl, rfl⟩
  simp only [feat_cells]
  exact mem_read_self v feat_n (length_feat_cells sg src.feat feat_n v h)

/-- Witness of claim C14: node 1 of the sample `line_three` copied over a record
filled with 0xFF. -/
theorem snode_copy_copies_witness :
    ∃ d s : snode ℚ,
      snode_copy (line_three : subgraph ℚ) snode_0xFF
        { snode_clear snode_0xFF with position := 1, feat := .view 1, adj := [0] } 1 =
          some (d, s) ∧
      s = { snode_clear snode_0xFF with position := 1, feat := .view 1, adj := [0] } ∧
      feat_cells (line_three : subgraph ℚ) d.feat 1 = some [.num 1] ∧ d.adj = [0] ∧
      d.path_val = fval.nan ∧ d.dens = fval.nan ∧ d.radius = fval.nan ∧
      d.label = NIL ∧ d.label_true = NIL ∧ d.root = NIL ∧
      d.pred = NIL ∧ d.position = 1 ∧ d.status = 0 ∧ d.nplatadj = 0 :=
  snode_copy_copies (line_three : subgraph ℚ) snode_0xFF
    { snode_clear snode_0xFF with position := 1, feat := .view 1, adj := [0] } 1
    [.num 1] rfl

/-! ## Destruction -/

theorem destroy_loop_isSome {R : Type} (node : List (snode R)) (n : Nat)
    (r : List released) (hn : n ≤ node.length) :
    ∃ r1, for_uptoM
      (fun i (r : List released) =>
        (node[i]?).bind fun x =>
        if x.adj ≠ [] then some (r ++ [.adj i]) else some r) n r = some r1 := by
  induction n with
  | zero => exact ⟨r, rfl⟩
  | succ n ih =>
    obtain ⟨r1, h1⟩ := ih (by omega)
    have hlt : n < node.length := by omega
    simp only [for_uptoM, h1, Option.some_bind, List.getElem?_eq_getElem hlt]
    split
    · exact ⟨_, rfl⟩
    · exact ⟨_, rfl⟩

/-- Claim C16.  `subgraph_destroy` leaves the handle `NULL`; on a `NULL` handle
it releases nothing and leaves it `NULL`, so a second call after the first
changes nothing. -/
theorem subgraph_destroy_idempotent {R : Type} (handle : Option (subgraph R))
    (hwf : ∀ sg, handle = some sg → sg.node.length = sg.node_n) :
    subgraph_destroy (none : Option (subgraph R)) = some (none, []) ∧
    ∃ r, subgraph_destroy handle = some r ∧ r.1 = none ∧
      subgraph_destroy r.1 = some (r.1, []) := by
  refine ⟨rfl, ?_⟩
  cases handle with
  | none => exact ⟨(none, []), rfl, rfl, rfl⟩
  | some sg =>
    have hn := hwf sg rfl
    obtain ⟨r1, h1⟩ := destroy_loop_isSome sg.node sg.node_n
      (if sg.pdist.isSome then
        (if sg.feat_data.isSome then [released.feat_data] else []) ++ [released.pdist]
      else (if sg.feat_data.isSome then [released.feat_data] else [])) (by omega)
    refine ⟨(none, r1 ++ [.node, .ordered_list_of_nodes, .sg]), ?_, rfl, rfl⟩
    simp only [subgraph_destroy, h1, Option.map_some']

/-- Witness of claim C16: the handle of the sample `line_three`. -/
theorem subgraph_destroy_idempotent_witness :
    subgraph_destroy (none : Option (subgraph ℚ)) = some (none, []) ∧
    ∃ r, subgraph_destroy (some (line_three : subgraph ℚ)) = some r ∧ r.1 = none ∧
      subgraph_destroy r.1 = some (r.1, []) :=
  subgraph_destroy_idempotent (some line_three) (by intro sg h; cases h; rfl)

/-! ## Distance resolution -/

theorem d_abs_comm {R : Type} [LinearOrderedField R] (x y : List (fval R)) (n : Int) :
    d_abs x y n = d_abs y x n := by
  rcases x with _ | ⟨x0, _ | ⟨x1, xs⟩⟩ <;> rcases y with _ | ⟨y0, _ | ⟨y1, ys⟩⟩ <;>
    first
    | rfl
    | (cases x0 <;> cases y0 <;> simp [d_abs, abs_sub_comm])
    | (cases x0 <;> simp [d_abs])
    | (cases y0 <;> simp [d_abs])

/-- Counterexample to claim C17 as stated: on the sample `skew_pair` the
selected function `d_abs` is symmetric, yet the distance from node 0 to node 1
is 1 and the distance from node 1 to node 0 is 2, both read from the table. -/
theorem subgraph_get_distance_skew :
    (∀ (x y : List (fval ℚ)) (n : Int), d_abs x y n = d_abs y x n) ∧
    (skew_pair : subgraph ℚ).arc_weight = .fn d_abs ∧
    (skew_pair : subgraph ℚ).node[0]?.bind (fun a =>
      (skew_pair : subgraph ℚ).node[1]?.bind fun b =>
        subgraph_get_distance skew_pair a b) = some (fval.num 1) ∧
    (skew_pair : subgraph ℚ).node[0]?.bind (fun a =>
      (skew_pair : subgraph ℚ).node[1]?.bind fun b =>
        subgraph_get_distance skew_pair b a) = some (fval.num 2) :=
  ⟨d_abs_comm, rfl, rfl, rfl⟩

/-- Claim C17, amended.  When the selected distance function is symmetric and
the precomputed table, if there is one, is symmetric too (for all `i` and `j`
from 0 below the stride, the entry at `i * stride + j` is the entry at
`j * stride + i`), the distance from `a` to `b` is the distance from `b` to `a`
for all nodes `a` and `b` whose positions, when there is a table, are from 0
below the stride. -/
theorem subgraph_get_distance_symm {R : Type} (sg : subgraph R)
    (hsym : ∀ f, sg.arc_weight = .fn f → ∀ x y n, f x y n = f y x n)
    (hmat : ∀ m, sg.pdist = some m → ∀ i j : Int,
      0 ≤ i → i < sg.pdist_train_stride → 0 ≤ j → j < sg.pdist_train_stride →
      at_int m (i * sg.pdist_train_stride + j) = at_int m (j * sg.pdist_train_stride + i))
    (a b : snode R)
    (hpos : ∀ m, sg.pdist = some m →
      0 ≤ a.position ∧ a.position < sg.pdist_train_stride ∧
      0 ≤ b.position ∧ b.position < sg.pdist_train_stride) :
    subgraph_get_distance sg a b = subgraph_get_distance sg b a := by
  unfold subgraph_get_distance
  cases hp : sg.pdist with
  | some m =>
    obtain ⟨ha0, ha1, hb0, hb1⟩ := hpos m hp
    simp only [PDISTANCE, hp]
    exact hmat m hp _ _ ha0 ha1 hb0 hb1
  | none =>
    simp only
    cases ha : sg.arc_weight with
    | null => rfl
    | wild => rfl
    | fn f =>
      simp only
      cases feat_cells sg a.feat sg.feat_n <;> cases feat_cells sg b.feat sg.feat_n <;>
        simp [hsym f ha]

/-- Witness of claim C17 as amended: the two nodes of the sample `skew_pair`
with the symmetric table `[0, 5; 5, 0]` in place of its table, which are at
distance 5 both ways. -/
theorem subgraph_get_distance_symm_witness :
    subgraph_get_distance
        { (skew_pair : subgraph ℚ) with pdist := some [.num 0, .num 5, .num 5, .num 0] }
        { (snode_clear snode_0xFF : snode ℚ) with position := 0, adj := [1] }
        { (snode_clear snode_0xFF : snode ℚ) with position := 1 } =
      subgraph_get_distance
        { (skew_pair : subgraph ℚ) with pdist := some [.num 0, .num 5, .num 5, .num 0] }
        { (snode_clear snode_0xFF : snode ℚ) with position := 1 }
        { (snode_clear snode_0xFF : snode ℚ) with position := 0, adj := [1] } ∧
    subgraph_get_distance
        { (skew_pair : subgraph ℚ) with pdist := some [.num 0, .num 5, .num 5, .num 0] }
        { (snode_clear snode_0xFF : snode ℚ) with position := 0, adj := [1] }
        { (snode_clear snode_0xFF : snode ℚ) with position := 1 } = some (fval.num 5) :=
  ⟨subgraph_get_distance_symm
      { (skew_pair : subgraph ℚ) with pdist := some [.num 0, .num 5, .num 5, .num 0] }
      (by intro f h; cases h; exact d_abs_comm)
      (by
        intro m hm i j hi0 hi1 hj0 hj1
        cases hm
        change i < 2 at hi1
        change j < 2 at hj1
        have hi : i = 0 ∨ i = 1 := by omega
        have hj : j = 0 ∨ j = 1 := by omega
        rcases hi with rfl | rfl <;> rcases hj with rfl | rfl <;> rfl)
      _ _
      (by intro m _; exact ⟨by decide, by decide, by decide, by decide⟩),
    rfl⟩


/-! ## Precomputed distances -/

/-- The label loop of `subgraph_set_precomputed_distance`. -/
theorem label_loop_eq {R : Type} (lab : List Int) (n : Nat) (nd0 : List (snode R))
    (hn : n ≤ lab.length) :
    for_uptoM
      (fun i (nd : List (snode R)) =>
        (lab[i]?).bind fun l => some (upd nd i fun x => { x with label_true := l }))
      n nd0 =
    some (for_upto (fun i nd => upd nd (0 + i) (fun x => { x with label_true := lab.getD i 0 }))
      n nd0) := by
  induction n with
  | zero => rfl
  | succ n ih =>
    have hlt : n < lab.length := by omega
    simp only [for_uptoM, ih (by omega), Option.some_bind, for_upto,
      List.getElem?_eq_getElem hlt, Nat.zero_add]
    simp [hlt]

/-- Counterexample to claim C11 as stated: on the sub-graph that
`subgraph_create (65536)` returns, the cell count `65536 * 65536` is `2^32`,
which is 0 as an `int`.  For a matrix of `65536 * 65536` values the call
returns `TRUE` with the stride 65536 and a stored matrix of no cells, not the
input. -/
theorem subgraph_set_precomputed_distance_wrap :
    wrap_int (65536 * 65536) = 0 ∧
    (List.replicate (65536 * 65536) (fval.num (1 : ℚ))).length = 65536 * 65536 ∧
    ((subgraph_create true true true 65536 : Option (subgraph ℚ)).bind fun sg =>
      (subgraph_set_precomputed_distance true sg
        (List.replicate (65536 * 65536) (fval.num (1 : ℚ))) none).map
        fun r => (r.1, r.2.node_n, r.2.pdist, r.2.pdist_train_stride)) =
      some (true, 65536, some [], 65536) :=
  ⟨rfl, List.length_replicate _ _, rfl⟩

/-- Claim C11, amended.  On a sub-graph with `node_n` nodes whose cell count
`node_n * node_n` fits `int`, for a matrix of `node_n * node_n` values (and
`node_n` labels when labels are given), `subgraph_set_precomputed_distance`
succeeds when its allocation does; afterwards the stored matrix is the input,
the stride is `node_n`, `label_true` of node `i` is `label[i]` with labels and
is unchanged without, and the distance of two nodes is the input value at
`position (a) * node_n + position (b)`. -/
theorem subgraph_set_precomputed_distance_stores {R : Type} (sg : subgraph R)
    (dist : List (fval R)) (label : Option (List Int))
    (hnode : sg.node.length = sg.node_n)
    (hfit : sg.node_n * sg.node_n < 2147483648)
    (hdist : dist.length = sg.node_n * sg.node_n)
    (hlab : ∀ lab, label = some lab → sg.node_n ≤ lab.length) :
    ∃ sg1 : subgraph R,
      subgraph_set_precomputed_distance true sg dist label = some (true, sg1) ∧
      sg1.pdist = some dist ∧ sg1.pdist_train_stride = (sg.node_n : Int) ∧
      sg1.node_n = sg.node_n ∧
      (∀ i : Nat, i < sg.node_n →
        (∀ lab, label = some lab → (sg1.node[i]?).map (fun x => x.label_true) = lab[i]?) ∧
        (label = none →
          (sg1.node[i]?).map (fun x => x.label_true) =
            (sg.node[i]?).map (fun x => x.label_true)) ∧
        (sg1.node[i]?).map (fun x => x.position) = (sg.node[i]?).map (fun x => x.position)) ∧
      ∀ a b : snode R,
        subgraph_get_distance sg1 a b =
          at_int dist (a.position * (sg.node_n : Int) + b.position) := by
  have hw : wrap_int ((sg.node_n : Int) * (sg.node_n : Int)) =
      ((sg.node_n * sg.node_n : Nat) : Int) := by
    rw [← Nat.cast_mul]
    exact wrap_int_eq _ (by omega) (by omega)
  have hneg : ¬ ((sg.node_n * sg.node_n : Nat) : Int) < 0 := by omega
  have hread : mem_read dist 0 ((sg.node_n * sg.node_n : Nat) : Int) = some dist := by
    apply mem_read_self
    rw [hdist]
  have hcall : subgraph_set_precomputed_distance true sg dist label =
      match label with
      | none => some (true, { sg with pdist_train_stride := (sg.node_n : Int), pdist := some dist })
      | some lab =>
        (for_uptoM
          (fun i (nd : List (snode R)) =>
            (lab[i]?).bind fun l => some (upd nd i fun x => { x with label_true := l }))
          sg.node_n sg.node).map
        fun nd => (true,
          { sg with pdist_train_stride := (sg.node_n : Int), pdist := some dist, node := nd }) := by
    unfold subgraph_set_precomputed_distance
    dsimp only
    rw [hw, if_neg (by simpa using hneg), hread, Option.some_bind]
    cases label <;> rfl
  rw [hcall]
  cases label with
  | none =>
    refine ⟨{ sg with pdist_train_stride := (sg.node_n : Int), pdist := some dist }, rfl, rfl,
      rfl, rfl, ?_, fun a b => rfl⟩
    intro i _
    exact ⟨fun lab h => (by cases h), fun _ => rfl, rfl⟩
  | some lab =>
    have hl := hlab lab rfl
    have hbody : ∀ (t : Nat) (nd : List (snode R)),
        (fun i nd => upd nd (0 + i) (fun x : snode R =>
          { x with label_true := lab.getD i 0 })) t nd =
        upd nd (0 + t) ((fun (i : Nat) (x : snode R) =>
          { x with label_true := lab.getD i 0 }) t) := fun _ _ => rfl
    refine ⟨{ sg with
        pdist_train_stride := (sg.node_n : Int)
        pdist := some dist
        node := for_upto (fun i nd => upd nd (0 + i) (fun x : snode R =>
          { x with label_true := lab.getD i 0 })) sg.node_n sg.node }, ?_, rfl, rfl, rfl, ?_,
      fun a b => rfl⟩
    · simp [label_loop_eq lab sg.node_n sg.node hl]
    · intro i hi
      have hi2 : 0 ≤ i ∧ i < 0 + sg.node_n := by omega
      have hil : i < sg.node.length := by omega
      have hlt : i < lab.length := by omega
      have hnd := getElem?_for_upto_upd _ 0 _ hbody sg.node_n sg.node i
      rw [if_pos hi2, List.getElem?_eq_getElem hil] at hnd
      simp only [Option.map_some', Nat.sub_zero] at hnd
      dsimp only
      rw [hnd]
      refine ⟨fun lab1 h => ?_, fun h => ?_, ?_⟩
      · cases h
        simp [hlt]
      · cases h
      · simp [hil]

/-- Witness of claim C11 as amended: a 3 x 3 table and three labels on the
sample `line_three`. -/
theorem subgraph_set_precomputed_distance_stores_witness :
    ∃ sg1 : subgraph ℚ,
      subgraph_set_precomputed_distance true line_three
        [.num 0, .num 1, .num 10, .num 1, .num 0, .num 9, .num 10, .num 9, .num 0]
        (some [4, 5, 6]) = some (true, sg1) ∧
      sg1.pdist =
        some [.num 0, .num 1, .num 10, .num 1, .num 0, .num 9, .num 10, .num 9, .num 0] ∧
      sg1.pdist_train_stride = 3 ∧
      (sg1.node[2]?).map (fun x => x.label_true) = some 6 ∧
      (sg1.node[1]?).bind (fun a => (sg1.node[2]?).bind fun b =>
        subgraph_get_distance sg1 a b) = some (fval.num 9) := by
  obtain ⟨sg1, h1, h2, h3, -, h5, h6⟩ := subgraph_set_precomputed_distance_stores
    (line_three : subgraph ℚ)
    [.num 0, .num 1, .num 10, .num 1, .num 0, .num 9, .num 10, .num 9, .num 0]
    (some [4, 5, 6]) rfl (by decide) rfl (by intro lab h; cases h; decide)
  obtain ⟨hl, -, hpos1⟩ := h5 1 (by decide)
  obtain ⟨hl2, -, hpos2⟩ := h5 2 (by decide)
  refine ⟨sg1, h1, h2, h3, hl2 _ rfl, ?_⟩
  cases ha : sg1.node[1]? with
  | none => simp [ha] at hpos1; simp [line_three] at hpos1
  | some a =>
    cases hb : sg1.node[2]? with
    | none => simp [hb] at hpos2; simp [line_three] at hpos2
    | some b =>
      simp only [Option.some_bind, h6]
      rw [ha] at hpos1
      rw [hb] at hpos2
      simp [line_three] at hpos1 hpos2
      rw [hpos1, hpos2]
      rfl


/-! ## Feature views -/

/-- Every slot of the node array after `subgraph_resize`: a surviving node
keeps its record and a new one is cleared with its index as position; with a
feature block after the `realloc` (there was one and the new cell count is
positive), the `feat` member of both points to the row of the slot. -/
theorem resize_slot {R : Type} [LinearOrderedField R] (fresh : fresh_mem R)
    (sg sg1 : subgraph R) (n : Nat) (hnode : sg.node.length = sg.node_n)
    (h : subgraph_resize fresh sg n = some sg1) (t : Nat) (ht : t < n) :
    sg1.node[t]? = some
      (if (sg.feat_data.isSome && decide (0 < (n : Int) * sg.feat_n)) = true then
        { (if t < sg.node_n then sg.node.getD t snode_0xFF
            else { snode_clear snode_0xFF with position := (t : Int) }) with
          feat := featptr.view ((t : Int) * sg.feat_n) }
      else
        (if t < sg.node_n then sg.node.getD t snode_0xFF
          else { snode_clear snode_0xFF with position := (t : Int) })) := by
  obtain ⟨a, ha, hn, hnd, -, -, -, -, -⟩ := subgraph_resize_eq fresh sg sg1 n h
  obtain ⟨ha1, hsome, -⟩ := resize_arrays_eq fresh sg n a hnode ha
  rw [hnd, getElem?_resize_nodes, hsome]
  have hl : (List.take n sg.node).length = min n sg.node_n := by
    rw [List.length_take, hnode]
  by_cases hto : t < sg.node_n
  · have hr : ¬ (sg.node_n ≤ t ∧ t < sg.node_n + (n - sg.node_n)) := by omega
    have hil : t < sg.node.length := by omega
    have hai : a.1[t]? = some sg.node[t] := by
      rw [ha1, List.getElem?_append_left (by omega), List.getElem?_take_of_lt ht,
        List.getElem?_eq_getElem hil]
    have hgd : sg.node.getD t snode_0xFF = sg.node[t] := by
      rw [List.getD_eq_getElem?_getD, List.getElem?_eq_getElem hil]; rfl
    rw [if_neg hr, hai, if_pos hto, hgd]
    simp only [Option.map_some']
    cases (sg.feat_data.isSome && decide (0 < (n : Int) * sg.feat_n)) <;> simp [ht]
  · have hr : sg.node_n ≤ t ∧ t < sg.node_n + (n - sg.node_n) := by omega
    have hai : a.1[t]? = some snode_0xFF := by
      rw [ha1, List.getElem?_append_right (by omega), hl, List.getElem?_replicate]
      simp; omega
    rw [if_pos hr, hai, if_neg hto]
    simp only [Option.map_some']
    cases (sg.feat_data.isSome && decide (0 < (n : Int) * sg.feat_n)) <;> simp [ht]

/-- After `subgraph_resize`, when every position was the slot index, every
position is the slot index again. -/
theorem resize_slot_position {R : Type} [LinearOrderedField R] (fresh : fresh_mem R)
    (sg sg1 : subgraph R) (n : Nat) (hnode : sg.node.length = sg.node_n)
    (hpos : ∀ i, i < sg.node_n → ∃ x, sg.node[i]? = some x ∧ x.position = (i : Int))
    (h : subgraph_resize fresh sg n = some sg1) (t : Nat) (ht : t < n) :
    ∃ y, sg1.node[t]? = some y ∧ y.position = (t : Int) := by
  have hslot := resize_slot fresh sg sg1 n hnode h t ht
  refine ⟨_, hslot, ?_⟩
  by_cases hto : t < sg.node_n
  · obtain ⟨x, hx, hxp⟩ := hpos t hto
    have hgd : sg.node.getD t snode_0xFF = x := by
      rw [List.getD_eq_getElem?_getD, hx]; rfl
    simp only [if_pos hto, hgd]
    split <;> exact hxp
  · simp only [if_neg hto]
    split <;> rfl

/-- Claim C20.  On a sub-graph with a `node_n` x `node_n` distance table of
stride `node_n` whose positions are the slot indices, `subgraph_resize` ends,
that is every lookup of the rebuild is inside the old table, exactly when
`new_n ≤ old_n`; the lookup for the slots `i` and `j` is at `i * old_n + j`, and
for `old_n ≤ i` this index is outside the table. -/
theorem subgraph_resize_table_bounds {R : Type} [LinearOrderedField R] (fresh : fresh_mem R)
    (sg : subgraph R) (new_n : Nat) (m : List (fval R))
    (hnode : sg.node.length = sg.node_n) (hp : sg.pdist = some m)
    (hlen : m.length = sg.node_n * sg.node_n)
    (hstride : sg.pdist_train_stride = (sg.node_n : Int))
    (hpos : ∀ i, i < sg.node_n → ∃ x, sg.node[i]? = some x ∧ x.position = (i : Int)) :
    ((subgraph_resize fresh sg new_n).isSome ↔ new_n ≤ sg.node_n) ∧
    ((∀ i j : Nat, i < new_n → j < new_n → (PDISTANCE sg (i : Int) (j : Int)).isSome) ↔
      new_n ≤ sg.node_n) ∧
    (∀ i j : Nat, PDISTANCE sg (i : Int) (j : Int) = m[i * sg.node_n + j]?) ∧
    ∀ i j : Nat, sg.node_n ≤ i → m.length ≤ i * sg.node_n + j ∧
      PDISTANCE sg (i : Int) (j : Int) = none := by
  have hlook : ∀ i j : Nat, PDISTANCE sg (i : Int) (j : Int) = m[i * sg.node_n + j]? := by
    intro i j
    have e : (i : Int) * (sg.node_n : Int) + (j : Int) = ((i * sg.node_n + j : Nat) : Int) := by
      push_cast; ring
    simp only [PDISTANCE, hp, hstride, e, at_int_nat]
  have hout : ∀ i j : Nat, sg.node_n ≤ i → m.length ≤ i * sg.node_n + j := by
    intro i j hi
    have : sg.node_n * sg.node_n ≤ i * sg.node_n := Nat.mul_le_mul_right _ hi
    omega
  have hin : ∀ i j : Nat, i < sg.node_n → j < sg.node_n → i * sg.node_n + j < m.length := by
    intro i j hi hj
    have : (i + 1) * sg.node_n ≤ sg.node_n * sg.node_n := Nat.mul_le_mul_right _ hi
    have e : (i + 1) * sg.node_n = i * sg.node_n + sg.node_n := by ring
    omega
  have hnone : ∀ i j : Nat, sg.node_n ≤ i → PDISTANCE sg (i : Int) (j : Int) = none := by
    intro i j hi
    rw [hlook, List.getElem?_eq_none (hout i j hi)]
  refine ⟨⟨fun hs => ?_, fun hle => ?_⟩, ⟨fun hall => ?_, fun hle i j hi hj => ?_⟩, hlook,
    fun i j hi => ⟨hout i j hi, hnone i j hi⟩⟩
  · by_contra hgt
    have hlt : sg.node_n < new_n := by omega
    obtain ⟨sg1, h⟩ := Option.isSome_iff_exists.mp hs
    obtain ⟨a, ha, hn, hnd, -, -, -, -, hpd⟩ := subgraph_resize_eq fresh sg sg1 new_n h
    obtain ⟨dt, hdt, -, -⟩ := hpd m hp
    unfold resize_pdist at hdt
    obtain ⟨-, -, hrows⟩ := resize_pdist_rows _ new_n new_n _ dt hdt
    obtain ⟨hsome, -⟩ := hrows sg.node_n hlt 0 (by omega)
    obtain ⟨y, hy, hyp⟩ := resize_slot_position fresh sg sg1 new_n hnode hpos h sg.node_n hlt
    obtain ⟨z, hz, hzp⟩ := resize_slot_position fresh sg sg1 new_n hnode hpos h 0 (by omega)
    rw [← hnd, hy, hz] at hsome
    simp only [Option.some_bind, hyp, hzp] at hsome
    have hfr : PDISTANCE ({ sg with
        node_n := new_n
        node := sg1.node
        ordered_list_of_nodes := a.2.1
        feat_data := a.2.2 } : subgraph R) ((sg.node_n : Nat) : Int) ((0 : Nat) : Int) =
        PDISTANCE sg ((sg.node_n : Nat) : Int) ((0 : Nat) : Int) := rfl
    rw [hfr, hnone sg.node_n 0 (le_refl _)] at hsome
    simp at hsome
  · obtain ⟨sg1, h⟩ := subgraph_resize_shrink_defined fresh sg new_n m hnode hp hle (by
      intro i j hi hj
      obtain ⟨x, hx, hxp⟩ := hpos i (by omega)
      obtain ⟨y, hy, hyp⟩ := hpos j (by omega)
      have hlt := hin i j (by omega) (by omega)
      exact ⟨x, y, m[i * sg.node_n + j], hx, hy, by
        rw [hxp, hyp, hlook, List.getElem?_eq_getElem hlt]⟩)
    rw [h]; rfl
  · by_contra hgt
    have hlt : sg.node_n < new_n := by omega
    have := hall sg.node_n 0 hlt (by omega)
    rw [hnone sg.node_n 0 (le_refl _)] at this
    simp at this
  · rw [hlook, List.getElem?_eq_getElem (hin i j (by omega) (by omega))]
    rfl

/-- Witness of claim C20: the sample `far_pair`, whose table is 2 x 2, and three
nodes. -/
theorem subgraph_resize_table_bounds_witness :
    ((subgraph_resize junk_mem (far_pair : subgraph ℚ) 3).isSome ↔ 3 ≤ 2) ∧
    PDISTANCE (far_pair : subgraph ℚ) ((2 : Nat) : Int) ((0 : Nat) : Int) = none := by
  have hthm := subgraph_resize_table_bounds junk_mem (far_pair : subgraph ℚ) 3
    [.num 0, .num 100, .num 100, .num 0] rfl rfl rfl rfl (by
      intro i hi
      have hi2 : i < 2 := hi
      interval_cases i
      · exact ⟨_, rfl, rfl⟩
      · exact ⟨_, rfl, rfl⟩)
  exact ⟨hthm.1, (hthm.2.2.2 2 0 (by decide)).2⟩

/-! ## Range of the densities -/

/-- One round of the first loop of `subgraph_pdf_evaluate`, as an equation. -/
theorem pdf_raw_step_spec {R : Type} [LinearOrderedField R] (expf : R → R) (sg0 : subgraph R)
    (a b : fval R) (value : List (fval R)) (i : Nat) :
    pdf_raw_step expf i ({ sg0 with dens_min := a, dens_max := b }, value) =
      (raw_density expf sg0 sg0.k i).bind fun v =>
        some ({ sg0 with
            dens_min := if flt v a then v else a
            dens_max := if flt b v then v else b }, value.set i v) := by
  unfold pdf_raw_step raw_density
  have hfr : ∀ ni : snode R, ∀ adj : List Int,
      adj_distances { sg0 with dens_min := a, dens_max := b } ni adj =
        adj_distances sg0 ni adj := fun ni adj => adj_distances_frame sg0 sg0.k a b ni adj
  simp only [pdf_adj_loop_eq, hfr]
  cases h1 : sg0.node[i]? with
  | none => rfl
  | some ni =>
    simp only [Option.some_bind]
    cases h2 : adj_distances sg0 ni ni.adj with
    | none => rfl
    | some ds =>
      have hc : (((1 + (ds.length : Int) : Int)) : R) = 1 + (ds.length : R) := by
        push_cast; rfl
      simp only [Option.some_bind, fadd_zero_left, hc]
      split_ifs <;> rfl

/-- Extrema kept by the first loop of `subgraph_pdf_evaluate`: when the raw
densities of the nodes below `n` are numbers, the loop ends, `value[i]` is the
raw density of node `i`, and `dens_min ≤ value[i] ≤ dens_max`. -/
theorem pdf_raw_loop_bounds {R : Type} [LinearOrderedField R] (expf : R → R) (sg0 : subgraph R)
    (a0 b0 : R) (value0 : List (fval R)) (n : Nat) (hlen : n ≤ value0.length)
    (hraw : ∀ i, i < n → ∃ r, raw_density expf sg0 sg0.k i = some (fval.num r)) :
    ∃ (m M : R) (value : List (fval R)),
      for_uptoM (pdf_raw_step expf) n
          ({ sg0 with dens_min := fval.num a0, dens_max := fval.num b0 }, value0) =
        some ({ sg0 with dens_min := fval.num m, dens_max := fval.num M }, value) ∧
      m ≤ a0 ∧ b0 ≤ M ∧ value.length = value0.length ∧
      ∀ i, i < n → ∃ r, raw_density expf sg0 sg0.k i = some (fval.num r) ∧
        value[i]? = some (fval.num r) ∧ m ≤ r ∧ r ≤ M := by
  induction n with
  | zero =>
    exact ⟨a0, b0, value0, rfl, le_refl _, le_refl _, rfl,
      fun i hi => absurd hi (Nat.not_lt_zero i)⟩
  | succ n ih =>
    obtain ⟨m, M, value, hloop, hm, hM, hl, hval⟩ := ih (by omega) (fun i hi => hraw i (by omega))
    obtain ⟨r, hr⟩ := hraw n (by omega)
    have hstep := pdf_raw_step_spec expf sg0 (fval.num m) (fval.num M) value n
    rw [hr] at hstep
    simp only [Option.some_bind, flt] at hstep
    simp only [for_uptoM, hloop, Option.some_bind, hstep]
    have hnl : n < value.length := by omega
    by_cases h1 : r < m
    · by_cases h2 : M < r
      · refine ⟨r, r, value.set n (fval.num r), by simp [h1, h2], by linarith, by linarith,
          by simp [hl], fun i hi => ?_⟩
        by_cases hin : i = n
        · subst hin
          exact ⟨r, hr, by simp [hnl], le_refl _, le_refl _⟩
        · obtain ⟨ri, h3, h4, h5, h6⟩ := hval i (by omega)
          have hne : n ≠ i := fun e => hin e.symm
          exact ⟨ri, h3, by rw [List.getElem?_set_ne hne]; exact h4, by linarith, by linarith⟩
      · refine ⟨r, M, value.set n (fval.num r), by simp [h1, h2], by linarith, hM,
          by simp [hl], fun i hi => ?_⟩
        by_cases hin : i = n
        · subst hin
          exact ⟨r, hr, by simp [hnl], le_refl _, not_lt.mp h2⟩
        · obtain ⟨ri, h3, h4, h5, h6⟩ := hval i (by omega)
          have hne : n ≠ i := fun e => hin e.symm
          exact ⟨ri, h3, by rw [List.getElem?_set_ne hne]; exact h4, by linarith, h6⟩
    · by_cases h2 : M < r
      · refine ⟨m, r, value.set n (fval.num r), by simp [h1, h2], hm, by linarith,
          by simp [hl], fun i hi => ?_⟩
        by_cases hin : i = n
        · subst hin
          exact ⟨r, hr, by simp [hnl], not_lt.mp h1, le_refl _⟩
        · obtain ⟨ri, h3, h4, h5, h6⟩ := hval i (by omega)
          have hne : n ≠ i := fun e => hin e.symm
          exact ⟨ri, h3, by rw [List.getElem?_set_ne hne]; exact h4, h5, by linarith⟩
      · refine ⟨m, M, value.set n (fval.num r), by simp [h1, h2], hm, hM,
          by simp [hl], fun i hi => ?_⟩
        by_cases hin : i = n
        · subst hin
          exact ⟨r, hr, by simp [hnl], not_lt.mp h1, not_lt.mp h2⟩
        · obtain ⟨ri, h3, h4, h5, h6⟩ := hval i (by omega)
          have hne : n ≠ i := fun e => hin e.symm
          exact ⟨ri, h3, by rw [List.getElem?_set_ne hne]; exact h4, h5, h6⟩

/-- The sum of the kernel terms over finite distances is a number when the
bandwidth is a number other than zero. -/
theorem kernel_sum_num {R : Type} [LinearOrderedField R] (expf : R → R) (k : R) (hk : k ≠ 0)
    (ds : List (fval R)) (hds : ∀ d, d ∈ ds → ∃ x, d = fval.num x) :
    ∃ s, (ds.map fun d => fexp expf (fdiv (fneg d) (fval.num k))).foldr fadd (.num 0) =
      fval.num s := by
  induction ds with
  | nil => exact ⟨0, rfl⟩
  | cons d rest ih =>
    obtain ⟨s, hs⟩ := ih (fun d hd => hds d (List.mem_cons_of_mem _ hd))
    obtain ⟨x, hx⟩ := hds d (List.mem_cons_self _ _)
    subst hx
    exact ⟨expf (-x / k) + s, by
      simp only [List.map_cons, List.foldr_cons, hs, fneg_num, fdiv_num _ _ hk, fexp_num,
        fadd_num]⟩

/-- Claim C19.  When the bandwidth `k = 2 * df / 9` is positive and the
distances from every node to the members of its adjacency are non-negative
numbers, `subgraph_pdf_evaluate` ends and every node has a density `d` that is
a number with `1 ≤ d ≤ DENS_MAX` and the path value `d - 1`, in the degenerate
branch and in the rescaling branch, whose divisor `dens_max - dens_min` is not
zero.  `DENS_MAX` is a parameter and is taken to be at least 1. -/
theorem subgraph_pdf_evaluate_range {R : Type} [LinearOrderedField R] (D : R) (expf : R → R)
    (sg : subgraph R) (df : R)
    (hnode : sg.node.length = sg.node_n) (hD : 1 ≤ D)
    (hdf : sg.df = fval.num df) (hk : 0 < 2 * df / 9)
    (hdist : ∀ (i : Nat) (ni : snode R), sg.node[i]? = some ni → ∃ ds, adj_distances sg ni ni.adj = some ds ∧
      ∀ d, d ∈ ds → ∃ x, d = fval.num x ∧ 0 ≤ x) :
    ∃ sg1, subgraph_pdf_evaluate D expf sg = some sg1 ∧
      ∀ i, i < sg.node_n → ∃ (x : snode R) (d : R), sg1.node[i]? = some x ∧
        x.dens = fval.num d ∧ x.path_val = fval.num (d - 1) ∧ 1 ≤ d ∧ d ≤ D := by
  have hk0 : 2 * df / 9 ≠ 0 := ne_of_gt hk
  have hK : fdiv (fmul (fval.num 2) sg.df) (fval.num (9 : R)) = fval.num (2 * df / 9) := by
    have h9 : (9 : R) ≠ 0 := by norm_num
    rw [hdf, fmul_num, fdiv_num _ _ h9]
  have hraw : ∀ i, i < sg.node_n → ∃ r,
      raw_density expf
        ({ sg with
          k := fval.num (2 * df / 9)
          dens_min := fval.num FLT_MAX
          dens_max := fval.num FLT_MIN } : subgraph R) (fval.num (2 * df / 9)) i =
        some (fval.num r) := by
    intro i hi
    have hil : i < sg.node.length := by omega
    obtain ⟨ds, hds, hnum⟩ := hdist i sg.node[i] (List.getElem?_eq_getElem hil)
    obtain ⟨s, hs⟩ := kernel_sum_num expf (2 * df / 9) hk0 ds
      (fun d hd => (hnum d hd).imp fun x hx => hx.1)
    have hpos : (1 + (ds.length : R)) ≠ 0 := by positivity
    refine ⟨s / (1 + (ds.length : R)), ?_⟩
    rw [raw_density_frame]
    simp only [raw_density, List.getElem?_eq_getElem hil, Option.some_bind, hds, hs,
      fdiv_num _ _ hpos]
  obtain ⟨m, M, value, hloop, hm, hM, hl, hval⟩ := pdf_raw_loop_bounds expf
    ({ sg with
      k := fval.num (2 * df / 9)
      dens_min := fval.num FLT_MAX
      dens_max := fval.num FLT_MIN } : subgraph R) FLT_MAX FLT_MIN
    (List.replicate sg.node_n (fval.num 0)) sg.node_n (by simp) hraw
  unfold subgraph_pdf_evaluate
  simp only [hK]
  have hloop2 : for_uptoM (pdf_raw_step expf) sg.node_n
      (({ sg with
          k := fval.num (2 * df / 9)
          dens_min := fval.num FLT_MAX
          dens_max := fval.num FLT_MIN } : subgraph R),
        List.replicate sg.node_n (fval.num (0 : R))) =
      some (({ sg with
          k := fval.num (2 * df / 9)
          dens_min := fval.num m
          dens_max := fval.num M } : subgraph R), value) := hloop
  rw [hloop2]
  simp only [Option.some_bind, feq]
  by_cases hmM : m = M
  · rw [if_pos (by simpa using hmM)]
    refine ⟨_, rfl, fun i hi => ?_⟩
    have hil : i < sg.node.length := by omega
    dsimp only
    rw [getElem?_for_upto_upd2_zero, if_pos hi, List.getElem?_eq_getElem hil]
    exact ⟨_, D, rfl, rfl, rfl, hD, le_refl _⟩
  · rw [if_neg (by simpa using hmM)]
    refine ⟨_, rfl, fun i hi => ?_⟩
    have hil : i < sg.node.length := by omega
    obtain ⟨r, -, hv, hmr, hrM⟩ := hval i hi
    have hgd : value.getD i fval.nan = fval.num r := by
      rw [List.getD_eq_getElem?_getD, hv]; rfl
    have hlt : m < M := lt_of_le_of_ne (le_trans hmr hrM) hmM
    have hMm : M - m ≠ 0 := ne_of_gt (sub_pos.mpr hlt)
    have hpos : 0 < M - m := sub_pos.mpr hlt
    dsimp only
    rw [getElem?_for_upto_upd2_zero, if_pos hi, List.getElem?_eq_getElem hil]
    refine ⟨_, (D - 1) * (r - m) / (M - m) + 1, rfl, ?_, ?_, ?_, ?_⟩
    · simp only [Function.comp, hgd, fsub_num, fmul_num, fdiv_num _ _ hMm, fadd_num]
    · simp only [Function.comp, hgd, fsub_num, fmul_num, fdiv_num _ _ hMm, fadd_num]
    · have h0 : 0 ≤ (D - 1) * (r - m) / (M - m) :=
        div_nonneg (mul_nonneg (by linarith) (by linarith)) (le_of_lt hpos)
      linarith
    · have h1 : (D - 1) * (r - m) / (M - m) ≤ D - 1 := by
        rw [div_le_iff₀ hpos]
        have : (D - 1) * (r - m) ≤ (D - 1) * (M - m) :=
          mul_le_mul_of_nonneg_left (by linarith) (by linarith)
        linarith
      linarith

/-- Witness of claim C19: node 0 of the end-to-end example of the specification,
with `DENS_MAX = 1000`. -/
theorem subgraph_pdf_evaluate_range_witness :
    ∃ sg1 : subgraph ℝ, subgraph_pdf_evaluate 1000 Real.exp line_three = some sg1 ∧
      ∃ (x : snode ℝ) (d : ℝ), sg1.node[0]? = some x ∧
        x.dens = fval.num d ∧ x.path_val = fval.num (d - 1) ∧ 1 ≤ d ∧ d ≤ 1000 := by
  obtain ⟨sg1, h, hall⟩ := subgraph_pdf_evaluate_range 1000 Real.exp
    (line_three : subgraph ℝ) (9 / 2) rfl (by norm_num) rfl (by norm_num) (by
      intro i ni hi
      have hlt : i < 3 := (List.getElem?_eq_some.mp hi).1
      interval_cases i
      · simp [line_three] at hi
        subst hi
        refine ⟨[fval.num 1], by
          simp [adj_distances, line_three, at_int, subgraph_get_distance, feat_cells,
            mem_read, d_abs, snode_clear, snode_0xFF], ?_⟩
        intro d hd
        simp at hd
        exact ⟨1, hd, by norm_num⟩
      · simp [line_three] at hi
        subst hi
        refine ⟨[fval.num 1], by
          simp [adj_distances, line_three, at_int, subgraph_get_distance, feat_cells,
            mem_read, d_abs, snode_clear, snode_0xFF], ?_⟩
        intro d hd
        simp at hd
        exact ⟨1, hd, by norm_num⟩
      · simp [line_three] at hi
        subst hi
        exact ⟨[], by simp [adj_distances, snode_clear], by simp⟩)
  exact ⟨sg1, h, hall 0 (by decide)⟩

end LibOPF
